import Mathlib

/-!
A shallow embedding of `modules/today_tmp/today_tmp.py`, the daily
scratch-directory reconciler, together with proofs about its behaviour.

The filesystem is modelled as a flat association list from absolute path
keys (lists of components) to nodes (regular file with content, directory
marker, or symlink storing its raw target string).  Path values mirror
`pathlib.PurePosixPath`: parsing drops empty and `"."` components, keeps
`".."`, and records absoluteness; equality is syntactic, exactly as Python
`Path.__eq__`.  Filesystem operations resolve intermediate symlinks via a
fuelled walk (fuel bounds the number of symlink expansions, like the
kernel's ELOOP limit); `stat`-like operations additionally follow a final
symlink while `lstat`-like ones do not.

The VCS is external to the program (invoked through `git status` /
`git add` / `git commit` / `git init`); it is modelled by the snapshot of
the repository tree recorded by the last commit, with `git status` reported
as the difference between that snapshot and the current tree, one porcelain
line (`XY path`) per changed non-directory entry.
-/

namespace TodayTmp

/-- A filesystem node: regular file (with content), directory marker, or
symbolic link storing the raw target string (what `os.readlink` returns). -/
inductive Node where
  | file (content : String)
  | dir
  | symlink (target : String)
deriving DecidableEq, Repr

/-- The filesystem: an association list from absolute path keys (component
lists) to nodes.  Lookup takes the first matching entry. -/
abbrev FS := List (List String × Node)

/-- A `pathlib`-style path value: absoluteness flag plus component list. -/
structure PPath where
  abs : Bool
  parts : List String
deriving DecidableEq, Repr

/-- Structural split of a character list on a separator character, with the
semantics of Python `str.split` (and of `String.splitOn` for a one-character
separator): `""` yields `[""]`, separators at the ends yield empty parts. -/
def splitOnChar (sep : Char) : List Char → List (List Char)
  | [] => [[]]
  | c :: rest =>
    if c = sep then [] :: splitOnChar sep rest
    else
      match splitOnChar sep rest with
      | [] => [[c]]
      | h :: t => (c :: h) :: t

/-- `s[:n]`: the first `n` characters of a string. -/
def strTake (s : String) (n : Nat) : String := ⟨s.data.take n⟩

/-- `s[n:]`: all but the first `n` characters of a string. -/
def strDrop (s : String) (n : Nat) : String := ⟨s.data.drop n⟩

/-- ASCII digit test (`0` – `9`). -/
def isDigitChar (c : Char) : Bool := 48 ≤ c.toNat && c.toNat ≤ 57

/-- Decimal value of a digit string. -/
def digitsToNat (cs : List Char) : Nat :=
  cs.foldl (fun n c => n * 10 + (c.toNat - 48)) 0

/-- Parse a string into a path, as `pathlib.PurePosixPath` does: split on
`/`, drop empty and `"."` components, absolute iff it starts with `/`. -/
def parsePath (s : String) : PPath :=
  { abs := match s.data with | '/' :: _ => true | _ => false
    parts := ((splitOnChar '/' s.data).map (fun cs => String.mk cs)).filter
      (fun c => c ≠ "" ∧ c ≠ ".") }

/-- Render a path back to a string (`str(path)` up to the `"."` spelling of
an empty relative path, which parses back to the same path value). -/
def render (p : PPath) : String :=
  (if p.abs then "/" else "") ++ String.intercalate "/" p.parts

/-- `path.parent` (the parent of a root or empty path is itself). -/
def PPath.parent (p : PPath) : PPath :=
  { abs := p.abs, parts := p.parts.dropLast }

/-- `path.name` (empty for a root or empty path). -/
def PPath.name (p : PPath) : String :=
  p.parts.getLast?.getD ""

/-- `p / q` on path values: an absolute right operand wins. -/
def PPath.join (p q : PPath) : PPath :=
  if q.abs then q else { abs := p.abs, parts := p.parts ++ q.parts }

/-- `p / s` for a single well-formed component `s`. -/
def PPath.child (p : PPath) (s : String) : PPath :=
  { abs := p.abs, parts := p.parts ++ [s] }

/-- `path.with_name(s)`. -/
def PPath.withName (p : PPath) (s : String) : PPath :=
  { abs := p.abs, parts := p.parts.dropLast ++ [s] }

/-- Look a key up in the filesystem.  The root `[]` always exists as a
directory. -/
def fsLookup (fs : FS) (k : List String) : Option Node :=
  if k = [] then some Node.dir
  else (fs.find? (fun e => e.1 = k)).map Prod.snd

/-- Remove a key from the filesystem. -/
def fsRemove (fs : FS) (k : List String) : FS :=
  fs.filter (fun e => e.1 ≠ k)

/-- Insert (or replace) a key in the filesystem. -/
def fsInsert (fs : FS) (k : List String) (n : Node) : FS :=
  (k, n) :: fsRemove fs k

/-- Resolve a path against the filesystem, following symlinks in
intermediate components and, when `fl` is true, also in the final
component; returns the physical key.  A missing or file-typed intermediate
component fails; a missing final component is allowed (its would-be
physical key is returned) only when `fl` is false.  `fuel` bounds the
number of symlink expansions. -/
def walk (fs : FS) : Nat → List String → List String → Bool → Option (List String)
  | 0, _, _, _ => none
  | fuel + 1, acc, rest, fl =>
    match rest with
    | [] => some acc
    | c :: rest =>
      if c = ".." then
        walk fs fuel acc.dropLast rest fl
      else
        match fsLookup fs (acc ++ [c]) with
        | some (Node.symlink t) =>
          if rest = [] ∧ fl = false then some (acc ++ [c])
          else
            let q := parsePath t
            walk fs fuel (if q.abs then [] else acc) (q.parts ++ rest) fl
        | some Node.dir => walk fs fuel (acc ++ [c]) rest fl
        | some (Node.file _) => if rest = [] then some (acc ++ [c]) else none
        | none => if rest = [] ∧ fl = false then some (acc ++ [c]) else none

/-- Fuel large enough that resolution only gives up on symlink cycles or
absurdly deep chains (the ELOOP condition): room for every component of the
path plus forty-one expansions of every symlink target stored anywhere in
the filesystem. -/
def walkFuel (fs : FS) (parts : List String) : Nat :=
  parts.length + 41 * (fs.foldl (fun n e =>
    match e.2 with
    | Node.symlink t => n + (parsePath t).parts.length + 1
    | _ => n) 0 + 1)

/-- Physical key of a path, not following a final symlink (`lstat`). -/
def physLstat (fs : FS) (p : PPath) : Option (List String) :=
  walk fs (walkFuel fs p.parts) [] p.parts false

/-- Physical key of a path, following a final symlink too (`stat`). -/
def physStat (fs : FS) (p : PPath) : Option (List String) :=
  walk fs (walkFuel fs p.parts) [] p.parts true

/-- The node a `stat`-style operation sees at `p`. -/
def statNode (fs : FS) (p : PPath) : Option Node :=
  (physStat fs p).bind (fsLookup fs)

/-- The node an `lstat`-style operation sees at `p`. -/
def lstatNode (fs : FS) (p : PPath) : Option Node :=
  (physLstat fs p).bind (fsLookup fs)

/-- `path.exists()`: follows symlinks; false for a dangling link. -/
def pexists (fs : FS) (p : PPath) : Bool :=
  (statNode fs p).isSome

/-- `path.is_dir()`: follows symlinks. -/
def isDir (fs : FS) (p : PPath) : Bool :=
  statNode fs p = some Node.dir

/-- `path.is_symlink()`: does not follow a final symlink. -/
def isSymlink (fs : FS) (p : PPath) : Bool :=
  match lstatNode fs p with
  | some (Node.symlink _) => true
  | _ => false

/-- `os.readlink(path)`: the raw stored target string. -/
def readlink (fs : FS) (p : PPath) : Option String :=
  match lstatNode fs p with
  | some (Node.symlink t) => some t
  | _ => none

/-- Errors: each constructor corresponds to an exception the Python code
can raise (`ValueError` from `backup_path`, `OSError` variants from the
filesystem primitives, `CalledProcessError` from a git invocation). -/
inductive Err where
  | backupExists (p : PPath)
  | notEmpty (k : List String)
  | notADir (k : List String)
  | noEnt (k : List String)
  | fileExists (k : List String)
  | gitFailed
deriving DecidableEq, Repr

/-- `path.unlink()` on a non-directory entry. -/
def unlinkFS (fs : FS) (p : PPath) : Except Err FS :=
  match physLstat fs p with
  | none => Except.error (Err.noEnt p.parts)
  | some k =>
    match fsLookup fs k with
    | none => Except.error (Err.noEnt k)
    | some Node.dir => Except.error (Err.notADir k)
    | some _ => Except.ok (fsRemove fs k)

/-- `path.symlink_to(dest)`: stores `str(dest)`; fails if something is
already at the path. -/
def symlinkTo (fs : FS) (p dest : PPath) : Except Err FS :=
  match physLstat fs p with
  | none => Except.error (Err.noEnt p.parts)
  | some k =>
    match fsLookup fs k with
    | some _ => Except.error (Err.fileExists k)
    | none => Except.ok (fsInsert fs k (Node.symlink (render dest)))

/-- `src.rename(dst)`: moves the entry and, for a directory, its whole
subtree; the destination must be unoccupied (the caller guarantees it). -/
def renameFS (fs : FS) (src dst : PPath) : Except Err FS :=
  match physLstat fs src, physLstat fs dst with
  | some ks, some kd =>
    match fsLookup fs ks with
    | none => Except.error (Err.noEnt ks)
    | some _ =>
      match fsLookup fs kd with
      | some _ => Except.error (Err.fileExists kd)
      | none =>
        Except.ok (fs.map (fun e =>
          if ks.isPrefixOf e.1 then (kd ++ e.1.drop ks.length, e.2) else e))
  | _, _ => Except.error (Err.noEnt src.parts)

/-- `path.mkdir(parents=True, exist_ok=True)`: create every missing
component of the key as a directory; an existing non-directory entry on
the chain is an error. -/
def mkdirp (fs : FS) (k : List String) : Except Err FS :=
  go fs [] k
where
  go (fs : FS) (acc : List String) : List String → Except Err FS
    | [] => Except.ok fs
    | c :: rest =>
      match fsLookup fs (acc ++ [c]) with
      | some Node.dir => go fs (acc ++ [c]) rest
      | some _ => Except.error (Err.fileExists (acc ++ [c]))
      | none => go (fsInsert fs (acc ++ [c]) Node.dir) (acc ++ [c]) rest

/-- Children names of a physical directory key, in filesystem order. -/
def childNames (fs : FS) (k : List String) : List String :=
  ((fs.map Prod.fst).filterMap (fun key =>
    if key.dropLast = k ∧ key ≠ [] then key.getLast? else none)).dedup

/-- `path.iterdir()`: resolves `p` to a directory and yields `p / name`
(logical paths, as `pathlib` does) for each child. -/
def iterdir (fs : FS) (p : PPath) : Except Err (List PPath) :=
  match physStat fs p with
  | none => Except.error (Err.noEnt p.parts)
  | some k =>
    match fsLookup fs k with
    | some Node.dir => Except.ok ((childNames fs k).map p.child)
    | some _ => Except.error (Err.notADir k)
    | none => Except.error (Err.noEnt k)

/-- `path.rmdir()`: does not follow a final symlink; the directory must be
empty (`ENOTEMPTY` otherwise, which is how `os.rmdir` behaves on a
directory that still holds a `prev` entry). -/
def rmdirFS (fs : FS) (p : PPath) : Except Err FS :=
  match physLstat fs p with
  | none => Except.error (Err.noEnt p.parts)
  | some k =>
    match fsLookup fs k with
    | some Node.dir =>
      if childNames fs k = [] then Except.ok (fsRemove fs k)
      else Except.error (Err.notEmpty k)
    | some _ => Except.error (Err.notADir k)
    | none => Except.error (Err.noEnt k)

/-- Trace events: one per externally visible call the program makes
(reconciler invocations with their result, directory creation/removal, and
the four VCS subprocess invocations). -/
inductive Ev where
  | ensureCall (path dest : PPath) (did : Bool)
  | mkdirCall (p : PPath)
  | rmdirCall (p : PPath)
  | gitStatus
  | gitAdd
  | gitCommitMsg (summary body : String)
  | gitInit
deriving DecidableEq, Repr

/-- `PREV_LINK = "prev"`. -/
def PREV_LINK : String := "prev"

/-- `backup_path`: `path.with_name(path.name + "-" + now)` where `now` is
`datetime.now().strftime(FILENAME_DATETIME_FMT)`; raises `ValueError` when
the computed backup path already exists. -/
def backup_path (fs : FS) (now : String) (path : PPath) : Except Err PPath :=
  let basename := path.name ++ "-" ++ now
  let new_path := path.withName basename
  if pexists fs new_path then Except.error (Err.backupExists new_path)
  else Except.ok new_path

/-- `ensure_symlink_to(path, dest)`: ensure `path` is a symlink to `dest`;
returns `True` if work was done.  State-passing version of the Python
function; also returns the trace of events. -/
def ensure_symlink_to (fs : FS) (now : String) (path dest : PPath) :
    Except Err (Bool × FS × List Ev) := do
  let (fs, tr0) ←
    if pexists fs path.parent then pure (fs, ([] : List Ev))
    else do
      let fs' ← mkdirp fs path.parent.parts
      pure (fs', [Ev.mkdirCall path.parent])
  if isSymlink fs path then
    let actual_dest := path.parent.join (parsePath ((readlink fs path).getD ""))
    if actual_dest = dest then
      pure (false, fs, tr0 ++ [Ev.ensureCall path dest false])
    else do
      let fs ← unlinkFS fs path
      let fs ← symlinkTo fs path dest
      pure (true, fs, tr0 ++ [Ev.ensureCall path dest true])
  else if pexists fs path then do
    let backup ← backup_path fs now path
    let fs ← renameFS fs path backup
    let fs ← symlinkTo fs path dest
    pure (true, fs, tr0 ++ [Ev.ensureCall path dest true])
  else do
    let fs ← symlinkTo fs path dest
    pure (true, fs, tr0 ++ [Ev.ensureCall path dest true])

/-- `remove_empty_dirs(path, other_than)`: remove child directories that
are empty after ignoring the `prev` entry; protected children and
non-directories are skipped. -/
def remove_empty_dirs (fs : FS) (path : PPath) (other_than : List PPath) :
    Except Err (FS × List Ev) := do
  let children ← iterdir fs path
  go fs children
where
  go (fs : FS) : List PPath → Except Err (FS × List Ev)
    | [] => Except.ok (fs, [])
    | child :: rest =>
      if child ∈ other_than then go fs rest
      else if ¬ isDir fs child then go fs rest
      else do
        let entries ← iterdir fs child
        let contents := entries.filter (fun p => p.name ≠ PREV_LINK)
        if contents ≠ [] then go fs rest
        else do
          let fs' ← rmdirFS fs child
          let (fs'', tr) ← go fs' rest
          pure (fs'', Ev.rmdirCall child :: tr)

/-- A calendar date, the result of `datetime.strptime(_, "%Y-%m-%d")`. -/
structure Date where
  y : Nat
  m : Nat
  d : Nat
deriving DecidableEq, Repr

/-- Strict `datetime` comparison, lexicographic on (year, month, day). -/
def Date.lt (a b : Date) : Bool :=
  a.y < b.y ∨ (a.y = b.y ∧ (a.m < b.m ∨ (a.m = b.m ∧ a.d < b.d)))

/-- Nonempty and all ASCII digits. -/
def isDigits (s : String) : Bool :=
  decide (s.data ≠ []) && s.data.all isDigitChar

/-- Days in a month (Gregorian, as `datetime` validates). -/
def monthLen (y m : Nat) : Nat :=
  if m = 2 then
    if (y % 4 = 0 ∧ ¬ y % 100 = 0) ∨ y % 400 = 0 then 29 else 28
  else if m = 4 ∨ m = 6 ∨ m = 9 ∨ m = 11 then 30 else 31

/-- `datetime.strptime(s, "%Y-%m-%d")` as a partial function: `%Y` is
exactly four digits, `%m`/`%d` one or two digits, and the constructor
validates month and day-of-month ranges; any failure means `ValueError`
(`none`). -/
def strptimeDate (s : String) : Option Date :=
  match (splitOnChar '-' s.data).map (fun cs => String.mk cs) with
  | [ys, ms, ds] =>
    if isDigits ys ∧ ys.data.length = 4 ∧ isDigits ms ∧ ms.data.length ≤ 2
        ∧ isDigits ds ∧ ds.data.length ≤ 2 then
      let y := digitsToNat ys.data
      let m := digitsToNat ms.data
      let d := digitsToNat ds.data
      if 1 ≤ m ∧ m ≤ 12 ∧ 1 ≤ d ∧ d ≤ monthLen y m then some ⟨y, m, d⟩
      else none
    else none
  | _ => none

/-- The 1900-01-01 sentinel from `latest_day_dir`. -/
def sentinelDate : Date := ⟨1900, 1, 1⟩

/-- One iteration of the loop in `latest_day_dir`: parse the child name,
keep the child when its date is strictly greater than the best so far. -/
def latestStep (acc : Date × PPath) (subdir : PPath) : Date × PPath :=
  match strptimeDate subdir.name with
  | none => acc
  | some date => if acc.1.lt date then (date, subdir) else acc

/-- `latest_day_dir(path)`: scan immediate children, parse names as dates,
return the child with the latest date strictly after the sentinel, or
`none`. -/
def latest_day_dir (fs : FS) (path : PPath) : Except Err (Option PPath) := do
  let children ← iterdir fs path
  let acc := children.foldl latestStep (sentinelDate, path)
  if acc.1 = sentinelDate then pure none else pure (some acc.2)

/-- The tree a commit snapshots: repository-relative keys of every
non-directory entry under the repository root (git does not track
directories; symlinks, `prev` included, are committed like files). -/
abbrev GitTree := List (List String × Node)

/-- State of the external VCS: the snapshot recorded by the last
commit (`none` when the repository was never initialised). -/
structure GitSt where
  snap : Option GitTree
deriving DecidableEq, Repr

/-- Lookup in a snapshot tree. -/
def treeLookup (t : GitTree) (k : List String) : Option Node :=
  (t.find? (fun e => e.1 = k)).map Prod.snd

/-- The current repository tree below a physical key. -/
def repoTree (fs : FS) (repoKey : List String) : GitTree :=
  fs.filterMap (fun e =>
    if repoKey.isPrefixOf e.1 ∧ e.1 ≠ repoKey ∧ e.2 ≠ Node.dir then
      some (e.1.drop repoKey.length, e.2)
    else none)

/-- Repository-relative path rendering for a status line. -/
def renderRel (k : List String) : String := String.intercalate "/" k

/-- Modelled interface of `git status --porcelain --untracked-files` run
with `cwd=repo`: one `XY path` line per entry differing between the last
committed snapshot and the current tree (`??` new, ` M` modified, ` D`
deleted).  Fails like `subprocess.run(..., check=True)` when the
repository was never initialised. -/
def gitStatusLines (git : GitSt) (fs : FS) (repo : PPath) : Except Err (List String) :=
  match physStat fs repo with
  | none => Except.error Err.gitFailed
  | some rk =>
    match git.snap with
    | none => Except.error Err.gitFailed
    | some snap =>
      let cur := repoTree fs rk
      Except.ok
        ((cur.filter (fun e => treeLookup snap e.1 ≠ some e.2)).map (fun e =>
            (if treeLookup snap e.1 = none then "??" else " M") ++ " " ++ renderRel e.1)
          ++ (snap.filter (fun e => treeLookup cur e.1 = none)).map (fun e =>
            " D" ++ " " ++ renderRel e.1))

/-- The list comprehension in `git_changes`:
`[(line[:2], repo / line[3:]) for line in lines]`. -/
def gitChangesOf (repo : PPath) (lines : List String) : List (String × PPath) :=
  lines.map (fun line => (strTake line 2, repo.join (parsePath (strDrop line 3))))

/-- `git_changes(repo)`: status lines decoded to (code, path) pairs. -/
def git_changes (git : GitSt) (fs : FS) (repo : PPath) :
    Except Err (List (String × PPath)) := do
  let lines ← gitStatusLines git fs repo
  pure (gitChangesOf repo lines)

/-- The change test in `git_commit`:
`any(path.name != PREV_LINK for _, path in git_changes(repo))`. -/
def hasChanges (repo : PPath) (lines : List String) : Bool :=
  (gitChangesOf repo lines).any (fun pr => pr.2.name ≠ PREV_LINK)

/-- `git_commit(repo)`: if the repository exists, commit iff some status
entry's final path component differs from `prev`; otherwise create the
repository directory and run `git init`. -/
def git_commit (fs : FS) (git : GitSt) (date : String) (repo : PPath) :
    Except Err (FS × GitSt × List Ev) := do
  if pexists fs repo then do
    let lines ← gitStatusLines git fs repo
    if hasChanges repo lines then
      match physStat fs repo with
      | none => Except.error Err.gitFailed
      | some rk =>
        pure (fs, { snap := some (repoTree fs rk) },
          [Ev.gitStatus, Ev.gitAdd,
           Ev.gitCommitMsg date ("Temporary / scratch work until " ++ date)])
    else
      pure (fs, git, [Ev.gitStatus])
  else do
    let fs ← mkdirp fs repo.parts
    pure (fs, { snap := some [] }, [Ev.mkdirCall repo, Ev.gitInit])

/-- Command-line arguments. -/
structure Args where
  repo_path : PPath
  working_path : PPath
  full : Bool
deriving DecidableEq, Repr

/-- `main(args)`: the reconciliation driver, parameterised by today's date
string (`datetime.now().strftime(DATE_FMT)`) and the backup timestamp
string (`datetime.now().strftime(FILENAME_DATETIME_FMT)`). -/
def main (args : Args) (date now : String) (fs : FS) (git : GitSt) :
    Except Err (FS × GitSt × List Ev) := do
  let day_dir := args.repo_path.child date
  let day_dir_is_ok := pexists fs day_dir
  let (working_path_is_ok, fs, tr1) ← ensure_symlink_to fs now args.working_path day_dir
  if args.full || !day_dir_is_ok || !working_path_is_ok then do
    let (fs, git, tr2) ← git_commit fs git date args.repo_path
    let (fs, tr3) ← remove_empty_dirs fs args.repo_path [day_dir]
    let latest ← latest_day_dir fs args.repo_path
    let (fs, tr4) ←
      if !day_dir_is_ok then do
        let fs' ← mkdirp fs day_dir.parts
        pure (fs', [Ev.mkdirCall day_dir])
      else pure (fs, ([] : List Ev))
    match latest with
    | some l => do
      let prev_link := args.working_path.child PREV_LINK
      let (_, fs, tr5) ← ensure_symlink_to fs now prev_link l
      pure (fs, git, tr1 ++ tr2 ++ tr3 ++ tr4 ++ tr5)
    | none => pure (fs, git, tr1 ++ tr2 ++ tr3 ++ tr4)
  else
    pure (fs, git, tr1)

/-! ### Properties of filesystem states -/

/-- Every proper prefix of every entry's key is a directory entry: true of
every state an actual filesystem can be in. -/
def wfFSb (fs : FS) : Bool :=
  fs.all (fun e => (List.range e.1.length).all
    (fun i => fsLookup fs (e.1.take i) = some Node.dir))

/-- Every proper prefix of `parts` is a directory or absent: the path's
parent chain is not routed through symlinks or files. -/
def cleanChainB (fs : FS) (parts : List String) : Bool :=
  (List.range parts.length).all
    (fun i => fsLookup fs (parts.take i) = some Node.dir
      ∨ fsLookup fs (parts.take i) = none)

/-- No `".."` components. -/
def noDots (parts : List String) : Bool :=
  parts.all (fun c => c ≠ "..")

/-- A directory chain up to (but excluding) `parts` itself. -/
def dirChain (fs : FS) (parts : List String) : Prop :=
  ∀ q, q <+: parts → q ≠ parts → fsLookup fs q = some Node.dir

/-- The program's own test of "`path` is a symlink to `dest`": `path` is a
symlink and `path.parent / os.readlink(path)` equals `dest`. -/
def linksTo (fs : FS) (path dest : PPath) : Prop :=
  isSymlink fs path = true ∧
  path.parent.join (parsePath ((readlink fs path).getD "")) = dest

/-- The filesystem after `path.rename(backup)` in `ensure_symlink_to`:
every key at or below `path` is re-rooted at the backup key. -/
def movedTree (fs : FS) (path : PPath) (now : String) : FS :=
  fs.map (fun e =>
    if path.parts.isPrefixOf e.1 then
      (path.parts.dropLast ++ (path.name ++ "-" ++ now) :: e.1.drop path.parts.length,
        e.2)
    else e)

/-- Decidable equality of `Except` results, so concrete runs can be checked
by `decide`. -/
instance exceptDecEq {ε α : Type} [DecidableEq ε] [DecidableEq α] :
    DecidableEq (Except ε α) := fun a b =>
  match a, b with
  | Except.ok x, Except.ok y =>
    if h : x = y then isTrue (by rw [h]) else isFalse (fun hc => h (by injection hc))
  | Except.error x, Except.error y =>
    if h : x = y then isTrue (by rw [h]) else isFalse (fun hc => h (by injection hc))
  | Except.ok _, Except.error _ => isFalse (fun hc => Except.noConfusion hc)
  | Except.error _, Except.ok _ => isFalse (fun hc => Except.noConfusion hc)

/-! ### Concrete states used by witnesses and counterexamples -/

/-- Repository root `/repo`. -/
def repoP : PPath := ⟨true, ["repo"]⟩

/-- Working path `/scratch`. -/
def workP : PPath := ⟨true, ["scratch"]⟩

/-- A repository with one populated prior day and clean VCS state; today
(`2024-01-03`) does not exist yet. -/
def c1Fs0 : FS :=
  [ (["repo"], Node.dir),
    (["repo", "2024-01-02"], Node.dir),
    (["repo", "2024-01-02", "b.txt"], Node.file "B") ]

/-- VCS snapshot matching `c1Fs0` (no pending changes). -/
def c1Git0 : GitSt := ⟨some [(["2024-01-02", "b.txt"], Node.file "B")]⟩

/-- Arguments for the two-run experiment (full flag unset). -/
def c1Args : Args := ⟨repoP, workP, false⟩

/-- First reconciliation run on `c1Fs0`. -/
def c1Run1 : Except Err (FS × GitSt × List Ev) :=
  main c1Args "2024-01-03" "T1" c1Fs0 c1Git0

/-- State after the first run. -/
def c1St1 : FS × GitSt × List Ev := c1Run1.toOption.getD ([], ⟨none⟩, [])

/-- Second reconciliation run, same inputs, no external changes. -/
def c1Run2 : Except Err (FS × GitSt × List Ev) :=
  main c1Args "2024-01-03" "T2" c1St1.1 c1St1.2.1

/-- State after the second run. -/
def c1St2 : FS × GitSt × List Ev := c1Run2.toOption.getD ([], ⟨none⟩, [])

/-- A converged same-day state: today's directory exists with content from a
prior day, the working path symlink is already correct, and `prev` points at
the populated prior day `2024-01-02`. -/
def c3Fs : FS :=
  [ (["repo"], Node.dir),
    (["repo", "2024-01-02"], Node.dir),
    (["repo", "2024-01-02", "b.txt"], Node.file "B"),
    (["repo", "2024-01-03"], Node.dir),
    (["repo", "2024-01-03", "prev"], Node.symlink "/repo/2024-01-02"),
    (["scratch"], Node.symlink "/repo/2024-01-03") ]

/-- VCS snapshot matching `c3Fs` (no pending changes). -/
def c3Git : GitSt :=
  ⟨some [(["2024-01-02", "b.txt"], Node.file "B"),
         (["2024-01-03", "prev"], Node.symlink "/repo/2024-01-02")]⟩

/-- One reconciliation run from the converged state `c3Fs`. -/
def c3Run : Except Err (FS × GitSt × List Ev) :=
  main ⟨repoP, workP, false⟩ "2024-01-03" "T3" c3Fs c3Git

/-- The steady state: as `c3Fs` but `prev` already points at today itself. -/
def c5Fs : FS :=
  [ (["repo"], Node.dir),
    (["repo", "2024-01-02"], Node.dir),
    (["repo", "2024-01-02", "b.txt"], Node.file "B"),
    (["repo", "2024-01-03"], Node.dir),
    (["repo", "2024-01-03", "prev"], Node.symlink "/repo/2024-01-03"),
    (["scratch"], Node.symlink "/repo/2024-01-03") ]

/-- VCS snapshot matching `c5Fs` (no pending changes). -/
def c5Git : GitSt :=
  ⟨some [(["2024-01-02", "b.txt"], Node.file "B"),
         (["2024-01-03", "prev"], Node.symlink "/repo/2024-01-03")]⟩

/-- One reconciliation run from the steady state `c5Fs`, full flag unset. -/
def c5Run : Except Err (FS × GitSt × List Ev) :=
  main ⟨repoP, workP, false⟩ "2024-01-03" "T5" c5Fs c5Git

/-- A repository whose only non-protected child is a day directory holding
nothing but a `prev` symlink. -/
def c7Fs : FS :=
  [ (["repo"], Node.dir),
    (["repo", "2024-01-01"], Node.dir),
    (["repo", "2024-01-01", "prev"], Node.symlink "/repo/2023-12-31") ]

/-- A repository root whose only child is named `1900-01-01` — a name that
parses as a valid date. -/
def c4Fs : FS := [ (["repo"], Node.dir), (["repo", "1900-01-01"], Node.dir) ]

/-- A repository root with date-named, invalidly-named and non-date children,
used to exercise `latest_day_dir`. -/
def w4Fs : FS :=
  [ (["repo"], Node.dir),
    (["repo", "notes.txt"], Node.file "n"),
    (["repo", "2024-13-40"], Node.dir),
    (["repo", "2024-01-01"], Node.dir),
    (["repo", "2024-01-02"], Node.dir) ]

/-- A repository whose only uncommitted change is a `prev` symlink inside a
day directory. -/
def w6Fs : FS :=
  [ (["repo"], Node.dir),
    (["repo", "2024-01-01"], Node.dir),
    (["repo", "2024-01-01", "prev"], Node.symlink "/repo/x") ]

/-- A freshly initialised VCS (empty snapshot). -/
def w6Git : GitSt := ⟨some []⟩

/-- A repository whose only uncommitted change is an ordinary user file
named `prev` nested inside a day directory. -/
def w10Fs : FS :=
  [ (["repo"], Node.dir),
    (["repo", "2024-01-01"], Node.dir),
    (["repo", "2024-01-01", "prev"], Node.file "notes") ]

/-- A freshly initialised VCS (empty snapshot), for the `w10Fs` state. -/
def w10Git : GitSt := ⟨some []⟩

/-- A single regular file at the path `ensure_symlink_to` is to take over. -/
def w2Fs : FS := [(["w"], Node.file "data")]

/-- Files at both the takeover path and its computed backup path. -/
def w8Fs : FS := [(["w"], Node.file "x"), (["w-T8"], Node.file "old")]

/-- A symlink whose raw target resolves to the destination but is spelled
through `..`, plus the directories making both spellings resolve. -/
def w9Fs : FS :=
  [ (["home"], Node.dir),
    (["home", "link"], Node.symlink "/x/../repo/d"),
    (["x"], Node.dir),
    (["repo"], Node.dir),
    (["repo", "d"], Node.dir) ]

/-! ### Basic lookup lemmas -/

theorem fsLookup_nil (fs : FS) : fsLookup fs [] = some Node.dir := by
  simp [fsLookup]

theorem find?_pred_congr {α : Type} (p q : α → Bool) (l : List α)
    (h : ∀ a ∈ l, p a = q a) : l.find? p = l.find? q := by
  induction l with
  | nil => rfl
  | cons a t ih =>
    have ha := h a (List.mem_cons_self a t)
    rw [List.find?_cons, List.find?_cons, ha]
    cases q a
    · exact ih (fun b hb => h b (List.mem_cons_of_mem a hb))
    · rfl

theorem fsRemove_find (fs : FS) (k q : List String) (hne : q ≠ k) :
    (fsRemove fs k).find? (fun e => e.1 = q) = fs.find? (fun e => e.1 = q) := by
  unfold fsRemove
  rw [List.find?_filter]
  apply find?_pred_congr
  intro a _
  by_cases h : a.1 = q
  · have hk : a.1 ≠ k := by rw [h]; exact hne
    simp [h, hk, hne]
  · simp [h]

theorem fsLookup_remove (fs : FS) (k q : List String) (hk : k ≠ []) :
    fsLookup (fsRemove fs k) q = if q = k then none else fsLookup fs q := by
  by_cases hq : q = k
  · subst hq
    simp only [fsLookup, if_neg hk, if_pos rfl]
    have : (fsRemove fs q).find? (fun e => e.1 = q) = none := by
      apply List.find?_eq_none.2
      intro e he
      have := List.of_mem_filter he
      simpa using this
    simp [this]
  · by_cases hq0 : q = []
    · subst hq0; simp [fsLookup, hq]
    · simp [fsLookup, hq0, hq, fsRemove_find fs k q hq]

theorem fsLookup_insert (fs : FS) (k q : List String) (n : Node) (hk : k ≠ []) :
    fsLookup (fsInsert fs k n) q = if q = k then some n else fsLookup fs q := by
  by_cases hq : q = k
  · subst hq
    simp [fsLookup, fsInsert, List.find?_cons, hk]
  · by_cases hq0 : q = []
    · subst hq0; simp [fsLookup, fsInsert, hq]
    · have h1 : ¬ ((k, n).1 = q) := fun h => hq h.symm
      simp [fsLookup, fsInsert, hq0, hq, List.find?_cons, h1,
        fsRemove_find fs k q hq]

/-! ### Path-walk lemmas: resolution along plain directory chains -/

theorem walk_nil_pos (fs : FS) (fuel : Nat) (acc : List String) (fl : Bool)
    (hf : 0 < fuel) : walk fs fuel acc [] fl = some acc := by
  cases fuel with
  | zero => omega
  | succ f => simp [walk]

theorem lt_walkFuel (fs : FS) (parts : List String) :
    parts.length < walkFuel fs parts := by
  unfold walkFuel
  omega

theorem walk_dirs_false (fs : FS) (rest : List String) :
    ∀ (fuel : Nat) (acc : List String), rest.length < fuel →
      (∀ q, q ≠ [] → q <+: rest → q ≠ rest → fsLookup fs (acc ++ q) = some Node.dir) →
      noDots rest = true →
      walk fs fuel acc rest false = some (acc ++ rest) := by
  induction rest with
  | nil => intro fuel acc hf _ _; simp [walk_nil_pos fs fuel acc false hf]
  | cons c rest ih =>
    intro fuel acc hf hdir hnd
    cases fuel with
    | zero => simp at hf
    | succ f =>
    have hf' : rest.length < f := by simp at hf; omega
    have hc : c ≠ ".." := by
      have := List.all_eq_true.mp hnd c (List.mem_cons_self c rest)
      simpa using this
    have hnd' : noDots rest = true := by
      apply List.all_eq_true.mpr
      intro x hx
      exact List.all_eq_true.mp hnd x (List.mem_cons_of_mem c hx)
    rw [walk]
    simp only [if_neg hc]
    rcases rest with _ | ⟨c2, rest2⟩
    · cases hlk : fsLookup fs (acc ++ [c]) with
      | none => simp
      | some n =>
        cases n with
        | dir => simp [walk_nil_pos fs f (acc ++ [c]) false (by omega)]
        | file s => simp
        | symlink t => simp
    · have hdc : fsLookup fs (acc ++ [c]) = some Node.dir := by
        apply hdir [c] (by simp) ⟨c2 :: rest2, rfl⟩ (by simp)
      rw [hdc]
      have hmain := ih f (acc ++ [c]) hf' ?_ hnd'
      · simpa [List.append_assoc] using hmain
      · intro q hq hpfx hne
        have h1 : c :: q ≠ [] := by simp
        have h2 : c :: q <+: c :: c2 :: rest2 := by
          rcases hpfx with ⟨t, ht⟩
          exact ⟨t, by simp [ht]⟩
        have h3 : c :: q ≠ c :: c2 :: rest2 := by
          intro h; exact hne (by injection h)
        have := hdir (c :: q) h1 h2 h3
        simpa [List.append_assoc] using this

theorem walk_dirs_true (fs : FS) (rest : List String) :
    ∀ (fuel : Nat) (acc : List String), rest ≠ [] → rest.length < fuel →
      (∀ q, q ≠ [] → q <+: rest → q ≠ rest → fsLookup fs (acc ++ q) = some Node.dir) →
      noDots rest = true →
      (∀ t, fsLookup fs (acc ++ rest) ≠ some (Node.symlink t)) →
      walk fs fuel acc rest true =
        if (fsLookup fs (acc ++ rest)).isSome then some (acc ++ rest) else none := by
  induction rest with
  | nil => intro fuel acc h _ _ _ _; exact absurd rfl h
  | cons c rest ih =>
    intro fuel acc _ hf hdir hnd hsl
    cases fuel with
    | zero => simp at hf
    | succ f =>
    have hf' : rest.length < f := by simp at hf; omega
    have hc : c ≠ ".." := by
      have := List.all_eq_true.mp hnd c (List.mem_cons_self c rest)
      simpa using this
    have hnd' : noDots rest = true := by
      apply List.all_eq_true.mpr
      intro x hx
      exact List.all_eq_true.mp hnd x (List.mem_cons_of_mem c hx)
    rw [walk]
    simp only [if_neg hc]
    rcases rest with _ | ⟨c2, rest2⟩
    · cases hlk : fsLookup fs (acc ++ [c]) with
      | none => simp
      | some n =>
        cases n with
        | dir => simp [walk_nil_pos fs f (acc ++ [c]) true (by omega)]
        | file s => simp
        | symlink t =>
          exact absurd hlk (by simpa using hsl t)
    · have hdc : fsLookup fs (acc ++ [c]) = some Node.dir := by
        apply hdir [c] (by simp) ⟨c2 :: rest2, rfl⟩ (by simp)
      rw [hdc]
      have hmain := ih f (acc ++ [c]) (by simp) hf' ?_ hnd' ?_
      · simpa [List.append_assoc] using hmain
      · intro q hq hpfx hne
        have h2 : c :: q <+: c :: c2 :: rest2 := by
          rcases hpfx with ⟨t, ht⟩
          exact ⟨t, by simp [ht]⟩
        have h3 : c :: q ≠ c :: c2 :: rest2 := by
          intro h; exact hne (by injection h)
        have := hdir (c :: q) (by simp) h2 h3
        simpa [List.append_assoc] using this
      · intro t
        have := hsl t
        simpa [List.append_assoc] using this

/-! ### Bridges from the decidable state predicates -/

theorem prefix_eq_take {q k : List String} (h : q <+: k) : q = k.take q.length :=
  List.prefix_iff_eq_take.mp h

theorem wfFSb_spec {fs : FS} (hwf : wfFSb fs = true) {k : List String} {n : Node}
    (hlk : fsLookup fs k = some n) :
    ∀ q, q <+: k → q ≠ k → fsLookup fs q = some Node.dir := by
  intro q hpfx hne
  by_cases hk0 : k = []
  · subst hk0
    exact absurd (List.prefix_nil.mp hpfx) hne
  · have hfind : ∃ e, fs.find? (fun e => e.1 = k) = some e := by
      simp only [fsLookup, if_neg hk0] at hlk
      cases hf : fs.find? (fun e => e.1 = k) with
      | none => rw [hf] at hlk; simp at hlk
      | some e => exact ⟨e, rfl⟩
    obtain ⟨e, he⟩ := hfind
    have hmem : e ∈ fs := List.mem_of_find?_eq_some he
    have hkey : e.1 = k := by
      have := List.find?_some he
      simpa using this
    have hall := List.all_eq_true.mp hwf e hmem
    have hlen : q.length < e.1.length := by
      rw [hkey]
      rcases Nat.lt_or_ge q.length k.length with h | h
      · exact h
      · exfalso
        apply hne
        have := List.IsPrefix.length_le hpfx
        have hql : q.length = k.length := Nat.le_antisymm this h
        rw [prefix_eq_take hpfx, hql, List.take_length]
    have := List.all_eq_true.mp hall q.length (List.mem_range.mpr hlen)
    rw [hkey] at this
    rw [prefix_eq_take hpfx]
    simpa using this

theorem cleanChainB_spec {fs : FS} {parts : List String}
    (hcc : cleanChainB fs parts = true) :
    ∀ q, q <+: parts → q ≠ parts →
      fsLookup fs q = some Node.dir ∨ fsLookup fs q = none := by
  intro q hpfx hne
  have hlen : q.length < parts.length := by
    rcases Nat.lt_or_ge q.length parts.length with h | h
    · exact h
    · exfalso
      apply hne
      have := List.IsPrefix.length_le hpfx
      have hql : q.length = parts.length := Nat.le_antisymm this h
      rw [prefix_eq_take hpfx, hql, List.take_length]
  have := List.all_eq_true.mp hcc q.length (List.mem_range.mpr hlen)
  rw [prefix_eq_take hpfx]
  simpa using this

theorem physLstat_of_dirChain {fs : FS} {p : PPath} (hd : dirChain fs p.parts)
    (hnd : noDots p.parts = true) : physLstat fs p = some p.parts := by
  unfold physLstat
  have := walk_dirs_false fs p.parts (walkFuel fs p.parts) []
    (lt_walkFuel fs p.parts)
    (fun q hq hpfx hne => by simpa using hd q hpfx hne) hnd
  simpa using this

theorem physStat_of_dirChain {fs : FS} {p : PPath} (hd : dirChain fs p.parts)
    (hnd : noDots p.parts = true) (hne : p.parts ≠ [])
    (hsl : ∀ t, fsLookup fs p.parts ≠ some (Node.symlink t)) :
    physStat fs p = if (fsLookup fs p.parts).isSome then some p.parts else none := by
  unfold physStat
  have := walk_dirs_true fs p.parts (walkFuel fs p.parts) [] hne
    (lt_walkFuel fs p.parts)
    (fun q hq hpfx hne' => by simpa using hd q hpfx hne') hnd (by simpa using hsl)
  simpa using this

theorem physStat_of_dirChain_at {fs : FS} (p : PPath) (hd : dirChain fs p.parts)
    (hnd : noDots p.parts = true) (hne : p.parts ≠ [])
    (hsl : ∀ t, fsLookup fs p.parts ≠ some (Node.symlink t)) :
    physStat fs p = if (fsLookup fs p.parts).isSome then some p.parts else none :=
  physStat_of_dirChain hd hnd hne hsl

/-! ### mkdirp lemmas -/

theorem mkdirp_go_keep :
    ∀ (rest : List String) (fs : FS) (acc : List String) (fs' : FS),
      mkdirp.go fs acc rest = Except.ok fs' →
      ∀ q n, fsLookup fs q = some n → fsLookup fs' q = some n := by
  intro rest
  induction rest with
  | nil =>
    intro fs acc fs' h q n hq
    simp only [mkdirp.go] at h
    cases h
    exact hq
  | cons c rest ih =>
    intro fs acc fs' h q n hq
    simp only [mkdirp.go] at h
    cases hlk : fsLookup fs (acc ++ [c]) with
    | some m =>
      cases m with
      | dir => rw [hlk] at h; exact ih fs (acc ++ [c]) fs' h q n hq
      | file s => rw [hlk] at h; cases h
      | symlink t => rw [hlk] at h; cases h
    | none =>
      rw [hlk] at h
      apply ih _ (acc ++ [c]) fs' h q n
      rw [fsLookup_insert _ _ _ _ (by simp)]
      have : q ≠ acc ++ [c] := by
        intro he
        rw [he, hlk] at hq
        cases hq
      simp [this, hq]

theorem mkdirp_go_frame :
    ∀ (rest : List String) (fs : FS) (acc : List String) (fs' : FS),
      mkdirp.go fs acc rest = Except.ok fs' →
      ∀ q, (∀ i, i < rest.length → q ≠ acc ++ rest.take (i + 1)) →
      fsLookup fs' q = fsLookup fs q := by
  intro rest
  induction rest with
  | nil =>
    intro fs acc fs' h q _
    simp only [mkdirp.go] at h
    cases h
    rfl
  | cons c rest ih =>
    intro fs acc fs' h q hq
    have hq0 : q ≠ acc ++ [c] := by
      have := hq 0 (by simp)
      simpa using this
    have hqs : ∀ i, i < rest.length → q ≠ (acc ++ [c]) ++ rest.take (i + 1) := by
      intro i hi he
      apply hq (i + 1) (by simpa using Nat.succ_lt_succ hi)
      rw [he]
      simp [List.take_succ_cons]
    simp only [mkdirp.go] at h
    cases hlk : fsLookup fs (acc ++ [c]) with
    | some m =>
      cases m with
      | dir => rw [hlk] at h; exact ih fs (acc ++ [c]) fs' h q hqs
      | file s => rw [hlk] at h; cases h
      | symlink t => rw [hlk] at h; cases h
    | none =>
      rw [hlk] at h
      have := ih _ (acc ++ [c]) fs' h q hqs
      rw [this, fsLookup_insert _ _ _ _ (by simp)]
      simp [hq0]

theorem mkdirp_go_dirs :
    ∀ (rest : List String) (fs : FS) (acc : List String) (fs' : FS),
      mkdirp.go fs acc rest = Except.ok fs' →
      ∀ i, i < rest.length → fsLookup fs' (acc ++ rest.take (i + 1)) = some Node.dir := by
  intro rest
  induction rest with
  | nil => intro fs acc fs' _ i hi; simp at hi
  | cons c rest ih =>
    intro fs acc fs' h i hi
    simp only [mkdirp.go] at h
    cases hlk : fsLookup fs (acc ++ [c]) with
    | some m =>
      cases m with
      | dir =>
        rw [hlk] at h
        cases i with
        | zero =>
          simpa using mkdirp_go_keep rest fs (acc ++ [c]) fs' h (acc ++ [c]) Node.dir hlk
        | succ j =>
          have := ih fs (acc ++ [c]) fs' h j (by simpa using Nat.lt_of_succ_lt_succ hi)
          simpa [List.take_succ_cons, List.append_assoc] using this
      | file s => rw [hlk] at h; cases h
      | symlink t => rw [hlk] at h; cases h
    | none =>
      rw [hlk] at h
      cases i with
      | zero =>
        have hins : fsLookup (fsInsert fs (acc ++ [c]) Node.dir) (acc ++ [c])
            = some Node.dir := by
          rw [fsLookup_insert _ _ _ _ (by simp)]; simp
        simpa using mkdirp_go_keep rest _ (acc ++ [c]) fs' h (acc ++ [c]) Node.dir hins
      | succ j =>
        have := ih _ (acc ++ [c]) fs' h j (by simpa using Nat.lt_of_succ_lt_succ hi)
        simpa [List.take_succ_cons, List.append_assoc] using this

theorem prefix_proper_dropLast {q parts : List String} (hpfx : q <+: parts)
    (hne : q ≠ parts) : q <+: parts.dropLast := by
  have hlen : q.length < parts.length := by
    rcases Nat.lt_or_ge q.length parts.length with h | h
    · exact h
    · exfalso
      apply hne
      have := List.IsPrefix.length_le hpfx
      have hql : q.length = parts.length := Nat.le_antisymm this h
      rw [prefix_eq_take hpfx, hql, List.take_length]
  have h1 : q.length ≤ parts.length - 1 := Nat.le_sub_one_of_lt hlen
  have h2 : parts.dropLast.take q.length = q := by
    rw [List.dropLast_eq_take, List.take_take, Nat.min_eq_left h1]
    exact (prefix_eq_take hpfx).symm
  rw [← h2]
  exact List.take_prefix _ _

theorem mkdirp_dirChain {fs fs' : FS} {parts : List String} (hne : parts ≠ [])
    (h : mkdirp fs parts.dropLast = Except.ok fs') : dirChain fs' parts := by
  intro q hpfx hqne
  have hq : q <+: parts.dropLast := prefix_proper_dropLast hpfx hqne
  by_cases hq0 : q = []
  · subst hq0; exact fsLookup_nil fs'
  · have hlen : 0 < q.length := List.length_pos.mpr hq0
    have hle : q.length ≤ parts.dropLast.length := List.IsPrefix.length_le hq
    have hi : q.length - 1 < parts.dropLast.length := by omega
    have := mkdirp_go_dirs parts.dropLast fs [] fs' h (q.length - 1) hi
    have htake : parts.dropLast.take (q.length - 1 + 1) = q := by
      rw [show q.length - 1 + 1 = q.length from by omega]
      exact (prefix_eq_take hq).symm
    rw [htake] at this
    simpa using this

theorem mkdirp_frame {fs fs' : FS} {pk : List String}
    (h : mkdirp fs pk = Except.ok fs') :
    ∀ q, ¬ (q <+: pk) → fsLookup fs' q = fsLookup fs q := by
  intro q hq
  apply mkdirp_go_frame pk fs [] fs' h
  intro i hi he
  apply hq
  rw [he]
  simpa using List.take_prefix (i + 1) pk

/-! ### Rename (subtree move) lookup lemmas -/

theorem isPrefixOf_iff {l₁ l₂ : List String} : l₁.isPrefixOf l₂ = true ↔ l₁ <+: l₂ :=
  List.isPrefixOf_iff_prefix

theorem map_move_lookup_moved (fs : FS) (ks kd rel : List String)
    (hks : ks ≠ []) (hkd : kd ≠ [])
    (hsub : ∀ e ∈ fs, ¬ (kd <+: e.1)) :
    fsLookup (fs.map (fun e =>
        if ks.isPrefixOf e.1 then (kd ++ e.1.drop ks.length, e.2) else e)) (kd ++ rel)
      = fsLookup fs (ks ++ rel) := by
  induction fs with
  | nil => simp [fsLookup, hks, hkd]
  | cons e t ih =>
    have ih' := ih (fun x hx => hsub x (List.mem_cons_of_mem e hx))
    have hkd' : kd ++ rel ≠ [] := by simp [hkd]
    have hks' : ks ++ rel ≠ [] := by simp [hks]
    simp only [fsLookup, if_neg hkd', if_neg hks', List.map_cons, List.find?_cons] at ih' ⊢
    by_cases hp : ks <+: e.1
    · rw [if_pos (isPrefixOf_iff.mpr hp)]
      have hsplit : e.1 = ks ++ e.1.drop ks.length := by
        rcases hp with ⟨u, hu⟩
        rw [← hu]; simp
      by_cases heq : e.1 = ks ++ rel
      · have h1 : kd ++ e.1.drop ks.length = kd ++ rel := by
          rw [heq]; simp
        simp [h1, heq]
      · have h1 : kd ++ e.1.drop ks.length ≠ kd ++ rel := by
          intro h
          apply heq
          have := List.append_cancel_left h
          rw [hsplit, this]
        simpa [h1, heq] using ih'
    · rw [if_neg (by simpa using (fun h => hp (isPrefixOf_iff.mp h)))]
      have h1 : e.1 ≠ kd ++ rel := by
        intro h
        exact hsub e (List.mem_cons_self e t) (h ▸ ⟨rel, rfl⟩)
      have h2 : e.1 ≠ ks ++ rel := by
        intro h
        exact hp (h ▸ ⟨rel, rfl⟩)
      simpa [h1, h2] using ih'

theorem map_move_lookup_frame (fs : FS) (ks kd q : List String)
    (hq1 : ¬ (ks <+: q)) (hq2 : ¬ (kd <+: q)) :
    fsLookup (fs.map (fun e =>
        if ks.isPrefixOf e.1 then (kd ++ e.1.drop ks.length, e.2) else e)) q
      = fsLookup fs q := by
  by_cases hq0 : q = []
  · subst hq0; simp [fsLookup]
  · induction fs with
    | nil => simp [fsLookup]
    | cons e t ih =>
      simp only [fsLookup, if_neg hq0, List.map_cons, List.find?_cons] at ih ⊢
      by_cases hp : ks <+: e.1
      · rw [if_pos (isPrefixOf_iff.mpr hp)]
        have h1 : kd ++ e.1.drop ks.length ≠ q := by
          intro h
          exact hq2 (h ▸ ⟨e.1.drop ks.length, rfl⟩)
        have h2 : e.1 ≠ q := by
          intro h
          exact hq1 (h ▸ hp)
        simpa [h1, h2] using ih
      · rw [if_neg (by simpa using (fun h => hp (isPrefixOf_iff.mp h)))]
        by_cases h2 : e.1 = q
        · simp [h2]
        · simpa [h2] using ih

theorem map_move_lookup_vacated (fs : FS) (ks kd q : List String)
    (hq1 : ks <+: q) (hq2 : ¬ (kd <+: q)) (hks : ks ≠ []) :
    fsLookup (fs.map (fun e =>
        if ks.isPrefixOf e.1 then (kd ++ e.1.drop ks.length, e.2) else e)) q
      = none := by
  have hq0 : q ≠ [] := by
    intro h
    subst h
    exact hks (List.prefix_nil.mp hq1)
  induction fs with
  | nil => simp [fsLookup, hq0]
  | cons e t ih =>
    simp only [fsLookup, if_neg hq0, List.map_cons, List.find?_cons] at ih ⊢
    by_cases hp : ks <+: e.1
    · rw [if_pos (isPrefixOf_iff.mpr hp)]
      have h1 : kd ++ e.1.drop ks.length ≠ q := by
        intro h
        exact hq2 (h ▸ ⟨e.1.drop ks.length, rfl⟩)
      rw [show (decide ((kd ++ List.drop ks.length e.1, e.2).1 = q)) = false from by
        simp [h1]]
      exact ih
    · rw [if_neg (by simpa using (fun h => hp (isPrefixOf_iff.mp h)))]
      have h2 : e.1 ≠ q := by
        intro h
        exact hp (h ▸ hq1)
      rw [show (decide (e.1 = q)) = false from by simp [h2]]
      exact ih

/-! ### Supporting lemmas for reasoning about `ensure_symlink_to` -/

@[simp] theorem except_bind_ok {α β : Type} (a : α) (f : α → Except Err β) :
    (Except.ok a : Except Err α) >>= f = f a := rfl

@[simp] theorem except_bind_err {α β : Type} (e : Err) (f : α → Except Err β) :
    (Except.error e : Except Err α) >>= f = Except.error e := rfl

@[simp] theorem except_pure {α : Type} (a : α) :
    (pure a : Except Err α) = Except.ok a := rfl

theorem append_dash_ne_dotdot (a b : String) : a ++ "-" ++ b ≠ ".." := by
  intro h
  have hd := congrArg String.data h
  simp only [String.data_append] at hd
  have : a.data ++ '-' :: b.data = ['.', '.'] := by
    simpa using hd
  rcases ha : a.data with _ | ⟨x, _ | ⟨y, t⟩⟩ <;> rw [ha] at this <;> simp_all

theorem append_dash_ne_self (a b : String) : a ++ "-" ++ b ≠ a := by
  intro h
  have h2 := congrArg String.length h
  rw [String.length_append, String.length_append] at h2
  have h3 : "-".length = 1 := rfl
  omega

theorem noDots_dropLast {parts : List String} (h : noDots parts = true) :
    noDots parts.dropLast = true := by
  apply List.all_eq_true.mpr
  intro x hx
  exact List.all_eq_true.mp h x (List.dropLast_subset parts hx)

theorem dirChain_dropLast {fs : FS} {parts : List String} (h : dirChain fs parts)
    (hne : parts ≠ []) :
    ∀ q, q <+: parts.dropLast → fsLookup fs q = some Node.dir := by
  intro q hq
  by_cases hql : q = parts
  · exfalso
    have := List.IsPrefix.length_le hq
    rw [hql] at this
    have hlen : parts.dropLast.length = parts.length - 1 := List.length_dropLast parts
    have hpos : 0 < parts.length := List.length_pos.mpr hne
    omega
  · exact h q (hq.trans (List.dropLast_prefix parts)) hql

theorem pexists_parent_of_dirChain {fs : FS} {p : PPath} (hd : dirChain fs p.parts)
    (hnd : noDots p.parts = true) (hne : p.parts ≠ []) :
    pexists fs p.parent = true := by
  unfold pexists statNode physStat PPath.parent
  rcases hdl : p.parts.dropLast with _ | ⟨c, rest⟩
  · rw [walk_nil_pos fs _ [] true (by unfold walkFuel; omega)]
    simp [fsLookup_nil]
  · have hw := walk_dirs_true fs (c :: rest) (walkFuel fs (c :: rest)) [] (by simp)
      (lt_walkFuel fs (c :: rest))
      (fun q hq hpfx hne' => by
        have := dirChain_dropLast hd hne q (by rw [hdl]; exact hpfx)
        simpa using this)
      (by rw [← hdl]; exact noDots_dropLast hnd)
      (fun t ht => by
        have := dirChain_dropLast hd hne (c :: rest) (by rw [hdl])
        simp only [List.nil_append] at ht
        rw [ht] at this
        cases this)
    have hdir := dirChain_dropLast hd hne (c :: rest) (by rw [hdl])
    simp only [List.nil_append] at hw
    show ((walk fs (walkFuel fs (c :: rest)) [] (c :: rest) true).bind
      (fsLookup fs)).isSome = true
    rw [hw]
    simp [hdir]

theorem walk_clean_true_none (fs : FS) (rest : List String) :
    ∀ (fuel : Nat) (acc : List String),
      (∀ q, q ≠ [] → q <+: rest →
        fsLookup fs (acc ++ q) = some Node.dir ∨ fsLookup fs (acc ++ q) = none) →
      (∃ q, q ≠ [] ∧ q <+: rest ∧ fsLookup fs (acc ++ q) = none) →
      noDots rest = true →
      walk fs fuel acc rest true = none := by
  induction rest with
  | nil =>
    intro fuel acc _ hex _
    obtain ⟨q, hq, hpfx, _⟩ := hex
    exact absurd (List.prefix_nil.mp hpfx) hq
  | cons c rest ih =>
    intro fuel acc hclean hex hnd
    have hc : c ≠ ".." := by
      have := List.all_eq_true.mp hnd c (List.mem_cons_self c rest)
      simpa using this
    have hnd' : noDots rest = true := by
      apply List.all_eq_true.mpr
      intro x hx
      exact List.all_eq_true.mp hnd x (List.mem_cons_of_mem c hx)
    cases fuel with
    | zero => rfl
    | succ f =>
    rw [walk]
    simp only [if_neg hc]
    cases hlk : fsLookup fs (acc ++ [c]) with
    | none =>
      rcases rest with _ | ⟨c2, rest2⟩ <;> simp
    | some n =>
      have hcl := hclean [c] (by simp) ⟨rest, rfl⟩
      rw [hlk] at hcl
      rcases hcl with hcl | hcl
      · -- directory: the missing prefix is longer
        cases hcl
        obtain ⟨q, hq, hpfx, hnone⟩ := hex
        rcases q with _ | ⟨c', q'⟩
        · exact absurd rfl hq
        · obtain ⟨u, hu⟩ := hpfx
          have hc' : c' = c := by injection hu with h1 h2
          rw [hc'] at hnone hu
          by_cases hq' : q' = []
          · subst hq'
            rw [hnone] at hlk
            cases hlk
          · apply ih f (acc ++ [c])
            · intro q hq1 hq2
              have hpq : c :: q <+: c :: rest := by
                rcases hq2 with ⟨u2, hu2⟩
                exact ⟨u2, by simp [hu2]⟩
              have := hclean (c :: q) (by simp) hpq
              simpa [List.append_assoc] using this
            · refine ⟨q', hq', ?_, ?_⟩
              · have h2 : q' ++ u = rest := by injection hu with h1 h2
                exact ⟨u, h2⟩
              · simpa [List.append_assoc] using hnone
            · exact hnd'
      · cases hcl


theorem walk_clean_false_none (fs : FS) (rest : List String) :
    ∀ (fuel : Nat) (acc : List String),
      (∀ q, q ≠ [] → q <+: rest → q ≠ rest →
        fsLookup fs (acc ++ q) = some Node.dir ∨ fsLookup fs (acc ++ q) = none) →
      (∃ q, q ≠ [] ∧ q <+: rest ∧ q ≠ rest ∧ fsLookup fs (acc ++ q) = none) →
      noDots rest = true →
      walk fs fuel acc rest false = none := by
  induction rest with
  | nil =>
    intro fuel acc _ hex _
    obtain ⟨q, hq, hpfx, _, _⟩ := hex
    exact absurd (List.prefix_nil.mp hpfx) hq
  | cons c rest ih =>
    intro fuel acc hclean hex hnd
    have hc : c ≠ ".." := by
      have := List.all_eq_true.mp hnd c (List.mem_cons_self c rest)
      simpa using this
    have hnd' : noDots rest = true := by
      apply List.all_eq_true.mpr
      intro x hx
      exact List.all_eq_true.mp hnd x (List.mem_cons_of_mem c hx)
    have hrestne : rest ≠ [] := by
      intro h
      subst h
      obtain ⟨q, hq, hpfx, hqne, _⟩ := hex
      rcases q with _ | ⟨c', q'⟩
      · exact absurd rfl hq
      · obtain ⟨u, hu⟩ := hpfx
        injection hu with h1 h2
        rcases q' with _ | ⟨a, b⟩
        · exact hqne (by simp [h1])
        · cases h2
    cases fuel with
    | zero => rfl
    | succ f =>
    rw [walk]
    simp only [if_neg hc]
    cases hlk : fsLookup fs (acc ++ [c]) with
    | none =>
      rcases rest with _ | ⟨c2, rest2⟩
      · exact absurd rfl hrestne
      · rfl
    | some n =>
      have hcl := hclean [c] (by simp) ⟨rest, rfl⟩
        (by intro h; exact hrestne (by injection h with h1 h2; exact h2.symm))
      rw [hlk] at hcl
      rcases hcl with hcl | hcl
      · cases hcl
        obtain ⟨q, hq, hpfx, hqne, hnone⟩ := hex
        rcases q with _ | ⟨c', q'⟩
        · exact absurd rfl hq
        · obtain ⟨u, hu⟩ := hpfx
          have hc' : c' = c := by injection hu with h1 h2
          rw [hc'] at hnone hu hqne
          by_cases hq' : q' = []
          · subst hq'
            rw [hnone] at hlk
            cases hlk
          · apply ih f (acc ++ [c])
            · intro q hq1 hq2 hq3
              have hpq : c :: q <+: c :: rest := by
                rcases hq2 with ⟨u2, hu2⟩
                exact ⟨u2, by simp [hu2]⟩
              have hpq3 : c :: q ≠ c :: rest := by
                intro h
                exact hq3 (by injection h)
              have := hclean (c :: q) (by simp) hpq hpq3
              simpa [List.append_assoc] using this
            · refine ⟨q', hq', ?_, ?_, ?_⟩
              · have h2 : q' ++ u = rest := by injection hu with h1 h2
                exact ⟨u, h2⟩
              · intro h
                exact hqne (by rw [h])
              · simpa [List.append_assoc] using hnone
            · exact hnd'
      · cases hcl

theorem fsLookup_isSome_of_mem {fs : FS} {e : List String × Node} (he : e ∈ fs) :
    (fsLookup fs e.1).isSome = true := by
  by_cases h0 : e.1 = []
  · simp [fsLookup, h0]
  · simp only [fsLookup, if_neg h0]
    cases hf : fs.find? (fun x => x.1 = e.1) with
    | none =>
      have := List.find?_eq_none.mp hf e he
      simp at this
    | some a => simp

theorem no_sub_entries {fs : FS} {kd : List String} (hwf : wfFSb fs = true)
    (hnone : fsLookup fs kd = none) :
    ∀ e ∈ fs, ¬ (kd <+: e.1) := by
  intro e he hpfx
  have hsome := fsLookup_isSome_of_mem he
  by_cases heq : kd = e.1
  · rw [← heq, hnone] at hsome
    cases hsome
  · obtain ⟨n, hn⟩ := Option.isSome_iff_exists.mp hsome
    have := wfFSb_spec hwf hn kd hpfx heq
    rw [hnone] at this
    cases this

/-! ### Branch-wise evaluation of `ensure_symlink_to` -/

theorem ensure_eval_correct_symlink {fs : FS} {path dest : PPath} {t : String}
    (now : String)
    (hdc : dirChain fs path.parts) (hnd : noDots path.parts = true)
    (hne : path.parts ≠ [])
    (hocc : fsLookup fs path.parts = some (Node.symlink t))
    (hjoin : path.parent.join (parsePath t) = dest) :
    ensure_symlink_to fs now path dest
      = Except.ok (false, fs, [Ev.ensureCall path dest false]) := by
  have hpl : physLstat fs path = some path.parts := physLstat_of_dirChain hdc hnd
  have hpar : pexists fs path.parent = true := pexists_parent_of_dirChain hdc hnd hne
  have hsym : isSymlink fs path = true := by simp [isSymlink, lstatNode, hpl, hocc]
  have hrl : readlink fs path = some t := by simp [readlink, lstatNode, hpl, hocc]
  unfold ensure_symlink_to
  rw [hpar]
  simp [hsym, hrl, hjoin]

theorem ensure_eval_wrong_symlink {fs : FS} {path dest : PPath} {t : String}
    (now : String)
    (hdc : dirChain fs path.parts) (hnd : noDots path.parts = true)
    (hne : path.parts ≠ [])
    (hocc : fsLookup fs path.parts = some (Node.symlink t))
    (hjoin : path.parent.join (parsePath t) ≠ dest) :
    ensure_symlink_to fs now path dest
      = Except.ok (true,
          fsInsert (fsRemove fs path.parts) path.parts (Node.symlink (render dest)),
          [Ev.ensureCall path dest true]) := by
  have hpl : physLstat fs path = some path.parts := physLstat_of_dirChain hdc hnd
  have hpar : pexists fs path.parent = true := pexists_parent_of_dirChain hdc hnd hne
  have hsym : isSymlink fs path = true := by simp [isSymlink, lstatNode, hpl, hocc]
  have hrl : readlink fs path = some t := by simp [readlink, lstatNode, hpl, hocc]
  have hun : unlinkFS fs path = Except.ok (fsRemove fs path.parts) := by
    simp [unlinkFS, hpl, hocc]
  have hdc2 : dirChain (fsRemove fs path.parts) path.parts := by
    intro q hq hne'
    rw [fsLookup_remove fs path.parts q hne, if_neg hne']
    exact hdc q hq hne'
  have hpl2 : physLstat (fsRemove fs path.parts) path = some path.parts :=
    physLstat_of_dirChain hdc2 hnd
  have hlk2 : fsLookup (fsRemove fs path.parts) path.parts = none := by
    rw [fsLookup_remove fs path.parts path.parts hne]
    simp
  have hst : symlinkTo (fsRemove fs path.parts) path dest
      = Except.ok (fsInsert (fsRemove fs path.parts) path.parts
          (Node.symlink (render dest))) := by
    simp [symlinkTo, hpl2, hlk2]
  unfold ensure_symlink_to
  rw [hpar]
  simp [hsym, hrl, hjoin, hun, hst]

theorem ensure_eval_backup_collision {fs : FS} {path : PPath} (dest : PPath) {n : Node}
    (now : String)
    (hdc : dirChain fs path.parts) (hnd : noDots path.parts = true)
    (hne : path.parts ≠ [])
    (hocc : fsLookup fs path.parts = some n) (hns : ∀ t, n ≠ Node.symlink t)
    (hbk : pexists fs (path.withName (path.name ++ "-" ++ now)) = true) :
    ensure_symlink_to fs now path dest
      = Except.error (Err.backupExists (path.withName (path.name ++ "-" ++ now))) := by
  have hpl : physLstat fs path = some path.parts := physLstat_of_dirChain hdc hnd
  have hpar : pexists fs path.parent = true := pexists_parent_of_dirChain hdc hnd hne
  have hsym : isSymlink fs path = false := by
    cases n with
    | file s => simp [isSymlink, lstatNode, hpl, hocc]
    | dir => simp [isSymlink, lstatNode, hpl, hocc]
    | symlink t => exact absurd rfl (hns t)
  have hex : pexists fs path = true := by
    have hw := physStat_of_dirChain hdc hnd hne (fun t ht => by
      rw [ht] at hocc
      injection hocc with h'
      exact hns t h'.symm)
    simp [pexists, statNode, hw, hocc]
  have hbp : backup_path fs now path
      = Except.error (Err.backupExists (path.withName (path.name ++ "-" ++ now))) := by
    simp [backup_path, hbk]
  unfold ensure_symlink_to
  rw [hpar]
  simp [hsym, hex, hbp]

theorem bk_parts_eq (path : PPath) (now : String) :
    (path.withName (path.name ++ "-" ++ now)).parts
      = path.parts.dropLast ++ [path.name ++ "-" ++ now] := rfl

theorem dirChain_bk {fs : FS} {path : PPath} (hdc : dirChain fs path.parts)
    (hne : path.parts ≠ []) (now : String) :
    dirChain fs (path.withName (path.name ++ "-" ++ now)).parts := by
  intro q hq hne'
  rw [bk_parts_eq] at hq hne'
  have h1 := prefix_proper_dropLast hq hne'
  rw [List.dropLast_concat] at h1
  exact dirChain_dropLast hdc hne q h1

theorem noDots_bk {path : PPath} (hnd : noDots path.parts = true) (now : String) :
    noDots (path.withName (path.name ++ "-" ++ now)).parts = true := by
  rw [bk_parts_eq]
  apply List.all_eq_true.mpr
  intro x hx
  rcases List.mem_append.mp hx with h | h
  · exact List.all_eq_true.mp (noDots_dropLast hnd) x h
  · have : x = path.name ++ "-" ++ now := by simpa using h
    subst this
    simpa using append_dash_ne_dotdot path.name now

theorem pexists_bk_of_lookup_none {fs : FS} {path : PPath} {now : String}
    (hdc : dirChain fs path.parts) (hnd : noDots path.parts = true)
    (hne : path.parts ≠ [])
    (hbklk : fsLookup fs (path.parts.dropLast ++ [path.name ++ "-" ++ now]) = none) :
    pexists fs (path.withName (path.name ++ "-" ++ now)) = false := by
  have hw := physStat_of_dirChain_at (path.withName (path.name ++ "-" ++ now))
    (dirChain_bk hdc hne now) (noDots_bk hnd now) (by rw [bk_parts_eq]; simp)
    (fun t ht => by rw [bk_parts_eq] at ht; rw [ht] at hbklk; cases hbklk)
  rw [bk_parts_eq] at hw
  simp [pexists, statNode, hw, hbklk]

theorem parts_dropLast_name {p : PPath} (hne : p.parts ≠ []) :
    p.parts.dropLast ++ [p.name] = p.parts := by
  unfold PPath.name
  rw [List.getLast?_eq_getLast p.parts hne]
  simp [List.dropLast_append_getLast hne]

theorem bk_ne_parts {p : PPath} (hne : p.parts ≠ []) (now : String) :
    p.parts.dropLast ++ [p.name ++ "-" ++ now] ≠ p.parts := by
  intro h
  have h1 : p.parts.dropLast ++ [p.name ++ "-" ++ now] = p.parts.dropLast ++ [p.name] :=
    h.trans (parts_dropLast_name hne).symm
  have h2 : p.name ++ "-" ++ now = p.name := by
    have h3 := List.append_cancel_left h1
    injection h3
  exact append_dash_ne_self p.name now h2

theorem bk_len {p : PPath} (hne : p.parts ≠ []) (now : String) :
    (p.parts.dropLast ++ [p.name ++ "-" ++ now]).length = p.parts.length := by
  have h1 : p.parts.length ≠ 0 := fun h => hne (List.eq_nil_of_length_eq_zero h)
  simp [List.length_dropLast]
  omega

theorem not_bk_prefix_parts {p : PPath} (hne : p.parts ≠ []) (now : String) :
    ¬ ((p.parts.dropLast ++ [p.name ++ "-" ++ now]) <+: p.parts) := by
  intro h
  exact bk_ne_parts hne now (List.IsPrefix.eq_of_length h (bk_len hne now))

theorem movedTree_eq (fs : FS) (path : PPath) (now : String) :
    movedTree fs path now
      = fs.map (fun e =>
          if path.parts.isPrefixOf e.1 then
            ((path.parts.dropLast ++ [path.name ++ "-" ++ now])
              ++ e.1.drop path.parts.length, e.2)
          else e) := by
  apply List.map_congr_left
  intro e _
  by_cases h : path.parts.isPrefixOf e.1 <;> simp [h]

theorem ensure_eval_takeover {fs : FS} {path : PPath} (dest : PPath) {n : Node} (now : String)
    (hwf : wfFSb fs = true)
    (hnd : noDots path.parts = true) (hne : path.parts ≠ [])
    (hocc : fsLookup fs path.parts = some n) (hns : ∀ t, n ≠ Node.symlink t)
    (hbklk : fsLookup fs (path.parts.dropLast ++ [path.name ++ "-" ++ now]) = none) :
    ensure_symlink_to fs now path dest
      = Except.ok (true,
          fsInsert (movedTree fs path now) path.parts (Node.symlink (render dest)),
          [Ev.ensureCall path dest true]) := by
  have hdc : dirChain fs path.parts := fun q hq hne' => wfFSb_spec hwf hocc q hq hne'
  have hpl : physLstat fs path = some path.parts := physLstat_of_dirChain hdc hnd
  have hpar : pexists fs path.parent = true := pexists_parent_of_dirChain hdc hnd hne
  have hsym : isSymlink fs path = false := by
    cases n with
    | file s => simp [isSymlink, lstatNode, hpl, hocc]
    | dir => simp [isSymlink, lstatNode, hpl, hocc]
    | symlink t => exact absurd rfl (hns t)
  have hex : pexists fs path = true := by
    have hw := physStat_of_dirChain hdc hnd hne (fun t ht => by
      rw [ht] at hocc
      injection hocc with h'
      exact hns t h'.symm)
    simp [pexists, statNode, hw, hocc]
  have hbk : pexists fs (path.withName (path.name ++ "-" ++ now)) = false :=
    pexists_bk_of_lookup_none hdc hnd hne hbklk
  have hbp : backup_path fs now path
      = Except.ok (path.withName (path.name ++ "-" ++ now)) := by
    simp [backup_path, hbk]
  have hplbk : physLstat fs (path.withName (path.name ++ "-" ++ now))
      = some (path.parts.dropLast ++ [path.name ++ "-" ++ now]) := by
    have := physLstat_of_dirChain (dirChain_bk hdc hne now) (noDots_bk hnd now)
    rw [bk_parts_eq] at this
    exact this
  have hren : renameFS fs path (path.withName (path.name ++ "-" ++ now))
      = Except.ok (movedTree fs path now) := by
    rw [movedTree_eq]
    simp [renameFS, hpl, hplbk, hocc, hbklk]
  have hdc3 : dirChain (movedTree fs path now) path.parts := by
    intro q hq hne'
    have hlq : q.length < path.parts.length := by
      rcases Nat.lt_or_ge q.length path.parts.length with h | h
      · exact h
      · exfalso
        apply hne'
        have := List.IsPrefix.length_le hq
        have hql : q.length = path.parts.length := Nat.le_antisymm this h
        rw [prefix_eq_take hq, hql, List.take_length]
    rw [movedTree_eq]
    rw [map_move_lookup_frame fs path.parts _ q
      (fun hpq => by have := List.IsPrefix.length_le hpq; omega)
      (fun hpq => by
        have := List.IsPrefix.length_le hpq
        rw [bk_len hne now] at this
        omega)]
    exact hdc q hq hne'
  have hvac : fsLookup (movedTree fs path now) path.parts = none := by
    rw [movedTree_eq]
    exact map_move_lookup_vacated fs path.parts _ path.parts List.prefix_rfl
      (not_bk_prefix_parts hne now) hne
  have hpl3 : physLstat (movedTree fs path now) path = some path.parts :=
    physLstat_of_dirChain hdc3 hnd
  have hst : symlinkTo (movedTree fs path now) path dest
      = Except.ok (fsInsert (movedTree fs path now) path.parts
          (Node.symlink (render dest))) := by
    simp only [symlinkTo, hpl3, hvac]
  unfold ensure_symlink_to
  rw [hpar]
  simp [hsym, hex, hbp, hren, hst]

theorem ensure_eval_absent_chain {fs : FS} {path : PPath} (dest : PPath) (now : String)
    (hdc : dirChain fs path.parts) (hnd : noDots path.parts = true)
    (hne : path.parts ≠ [])
    (hocc : fsLookup fs path.parts = none) :
    ensure_symlink_to fs now path dest
      = Except.ok (true, fsInsert fs path.parts (Node.symlink (render dest)),
          [Ev.ensureCall path dest true]) := by
  have hpl : physLstat fs path = some path.parts := physLstat_of_dirChain hdc hnd
  have hpar : pexists fs path.parent = true := pexists_parent_of_dirChain hdc hnd hne
  have hsym : isSymlink fs path = false := by simp [isSymlink, lstatNode, hpl, hocc]
  have hex : pexists fs path = false := by
    have hw := physStat_of_dirChain hdc hnd hne (fun t ht => by
      rw [ht] at hocc; cases hocc)
    simp [pexists, statNode, hw, hocc]
  have hst : symlinkTo fs path dest
      = Except.ok (fsInsert fs path.parts (Node.symlink (render dest))) := by
    simp [symlinkTo, hpl, hocc]
  unfold ensure_symlink_to
  rw [hpar]
  simp [hsym, hex, hst]

theorem pexists_parent_false_of_miss {fs : FS} {path : PPath}
    (hcc : cleanChainB fs path.parts = true)
    (hnd : noDots path.parts = true) (hne : path.parts ≠ [])
    (hmiss : ∃ q, q <+: path.parts ∧ q ≠ path.parts ∧ q ≠ [] ∧ fsLookup fs q = none) :
    pexists fs path.parent = false := by
  have hclean := cleanChainB_spec hcc
  obtain ⟨q₀, hq0p, hq0ne, hq0nil, hq0none⟩ := hmiss
  unfold pexists statNode physStat PPath.parent
  rw [walk_clean_true_none fs path.parts.dropLast (walkFuel fs path.parts.dropLast) []
    (fun q hq hpfx => by
      have h1 : q <+: path.parts := hpfx.trans (List.dropLast_prefix path.parts)
      have h2 : q ≠ path.parts := by
        intro h
        subst h
        have := List.IsPrefix.length_le hpfx
        have hlen : path.parts.dropLast.length = path.parts.length - 1 :=
          List.length_dropLast path.parts
        have hpos : 0 < path.parts.length := List.length_pos.mpr hne
        omega
      simpa using hclean q h1 h2)
    ⟨q₀, hq0nil, prefix_proper_dropLast hq0p hq0ne, by simpa using hq0none⟩
    (noDots_dropLast hnd)]
  rfl

theorem ensure_eval_absent_mkdir {fs fs₁ : FS} {path : PPath} (dest : PPath) (now : String)
    (hcc : cleanChainB fs path.parts = true)
    (hnd : noDots path.parts = true) (hne : path.parts ≠ [])
    (hocc : fsLookup fs path.parts = none)
    (hmiss : ∃ q, q <+: path.parts ∧ q ≠ path.parts ∧ q ≠ [] ∧ fsLookup fs q = none)
    (hmk : mkdirp fs path.parts.dropLast = Except.ok fs₁) :
    ensure_symlink_to fs now path dest
      = Except.ok (true, fsInsert fs₁ path.parts (Node.symlink (render dest)),
          [Ev.mkdirCall path.parent, Ev.ensureCall path dest true]) := by
  have hpar : pexists fs path.parent = false :=
    pexists_parent_false_of_miss hcc hnd hne hmiss
  have hdc1 : dirChain fs₁ path.parts := mkdirp_dirChain hne hmk
  have hlk1 : fsLookup fs₁ path.parts = none := by
    rw [mkdirp_frame hmk path.parts (fun h => by
      have := List.IsPrefix.length_le h
      have hlen : path.parts.dropLast.length = path.parts.length - 1 :=
        List.length_dropLast path.parts
      have hpos : 0 < path.parts.length := List.length_pos.mpr hne
      omega)]
    exact hocc
  have hpl1 : physLstat fs₁ path = some path.parts := physLstat_of_dirChain hdc1 hnd
  have hsym1 : isSymlink fs₁ path = false := by simp [isSymlink, lstatNode, hpl1, hlk1]
  have hex1 : pexists fs₁ path = false := by
    have hw := physStat_of_dirChain hdc1 hnd hne (fun t ht => by
      rw [ht] at hlk1; cases hlk1)
    simp [pexists, statNode, hw, hlk1]
  have hst : symlinkTo fs₁ path dest
      = Except.ok (fsInsert fs₁ path.parts (Node.symlink (render dest))) := by
    simp only [symlinkTo, hpl1, hlk1]
  unfold ensure_symlink_to
  rw [hpar]
  have hmk' : mkdirp fs path.parent.parts = Except.ok fs₁ := hmk
  simp [hmk', hsym1, hex1, hst]

theorem ensure_eval_mkdir_error {fs : FS} {path : PPath} (dest : PPath) {e : Err} (now : String)
    (hcc : cleanChainB fs path.parts = true)
    (hnd : noDots path.parts = true) (hne : path.parts ≠ [])
    (hmiss : ∃ q, q <+: path.parts ∧ q ≠ path.parts ∧ q ≠ [] ∧ fsLookup fs q = none)
    (hmk : mkdirp fs path.parts.dropLast = Except.error e) :
    ensure_symlink_to fs now path dest = Except.error e := by
  have hpar : pexists fs path.parent = false :=
    pexists_parent_false_of_miss hcc hnd hne hmiss
  unfold ensure_symlink_to
  rw [hpar]
  have hmk' : mkdirp fs path.parent.parts = Except.error e := hmk
  simp [hmk']

theorem ensure_eval_backup_dangling {fs : FS} {path : PPath} (dest : PPath) {n : Node}
    {tb : String} (now : String)
    (hwf : wfFSb fs = true)
    (hnd : noDots path.parts = true) (hne : path.parts ≠ [])
    (hocc : fsLookup fs path.parts = some n) (hns : ∀ t, n ≠ Node.symlink t)
    (hbklk : fsLookup fs (path.parts.dropLast ++ [path.name ++ "-" ++ now])
      = some (Node.symlink tb))
    (hpe : pexists fs (path.withName (path.name ++ "-" ++ now)) = false) :
    ensure_symlink_to fs now path dest
      = Except.error (Err.fileExists
          (path.parts.dropLast ++ [path.name ++ "-" ++ now])) := by
  have hdc : dirChain fs path.parts := fun q hq hne' => wfFSb_spec hwf hocc q hq hne'
  have hpl : physLstat fs path = some path.parts := physLstat_of_dirChain hdc hnd
  have hpar : pexists fs path.parent = true := pexists_parent_of_dirChain hdc hnd hne
  have hsym : isSymlink fs path = false := by
    cases n with
    | file s => simp [isSymlink, lstatNode, hpl, hocc]
    | dir => simp [isSymlink, lstatNode, hpl, hocc]
    | symlink t => exact absurd rfl (hns t)
  have hex : pexists fs path = true := by
    have hw := physStat_of_dirChain hdc hnd hne (fun t ht => by
      rw [ht] at hocc
      injection hocc with h'
      exact hns t h'.symm)
    simp [pexists, statNode, hw, hocc]
  have hbp : backup_path fs now path
      = Except.ok (path.withName (path.name ++ "-" ++ now)) := by
    simp [backup_path, hpe]
  have hplbk : physLstat fs (path.withName (path.name ++ "-" ++ now))
      = some (path.parts.dropLast ++ [path.name ++ "-" ++ now]) := by
    have := physLstat_of_dirChain (dirChain_bk hdc hne now) (noDots_bk hnd now)
    rw [bk_parts_eq] at this
    exact this
  have hren : renameFS fs path (path.withName (path.name ++ "-" ++ now))
      = Except.error (Err.fileExists
          (path.parts.dropLast ++ [path.name ++ "-" ++ now])) := by
    simp [renameFS, hpl, hplbk, hocc, hbklk]
  unfold ensure_symlink_to
  rw [hpar]
  simp [hsym, hex, hbp, hren]

theorem pexists_bk_of_lookup_nonsym {fs : FS} {path : PPath} {now : String} {nb : Node}
    (hdc : dirChain fs path.parts) (hnd : noDots path.parts = true)
    (hne : path.parts ≠ [])
    (hbklk : fsLookup fs (path.parts.dropLast ++ [path.name ++ "-" ++ now]) = some nb)
    (hnbs : ∀ t, nb ≠ Node.symlink t) :
    pexists fs (path.withName (path.name ++ "-" ++ now)) = true := by
  have hw := physStat_of_dirChain_at (path.withName (path.name ++ "-" ++ now))
    (dirChain_bk hdc hne now) (noDots_bk hnd now) (by rw [bk_parts_eq]; simp)
    (fun t ht => by
      rw [bk_parts_eq] at ht
      rw [ht] at hbklk
      injection hbklk with h'
      exact hnbs t h'.symm)
  rw [bk_parts_eq] at hw
  simp [pexists, statNode, hw, hbklk]

theorem movedTree_lookup_frame {fs : FS} {path : PPath} {now : String} (q : List String)
    (hq1 : ¬ (path.parts <+: q))
    (hq2 : ¬ ((path.parts.dropLast ++ [path.name ++ "-" ++ now]) <+: q)) :
    fsLookup (movedTree fs path now) q = fsLookup fs q := by
  rw [movedTree_eq]
  exact map_move_lookup_frame fs path.parts _ q hq1 hq2

theorem movedTree_lookup_moved {fs : FS} {path : PPath} {now : String}
    (hwf : wfFSb fs = true) (hne : path.parts ≠ [])
    (hbklk : fsLookup fs (path.parts.dropLast ++ [path.name ++ "-" ++ now]) = none)
    (rel : List String) :
    fsLookup (movedTree fs path now)
        ((path.parts.dropLast ++ [path.name ++ "-" ++ now]) ++ rel)
      = fsLookup fs (path.parts ++ rel) := by
  rw [movedTree_eq]
  exact map_move_lookup_moved fs path.parts _ rel hne (by simp)
    (no_sub_entries hwf hbklk)

theorem movedTree_lookup_vacated {fs : FS} {path : PPath} {now : String}
    (hne : path.parts ≠ []) :
    fsLookup (movedTree fs path now) path.parts = none := by
  rw [movedTree_eq]
  exact map_move_lookup_vacated fs path.parts _ path.parts List.prefix_rfl
    (not_bk_prefix_parts hne now) hne

theorem movedTree_dirChain {fs : FS} {path : PPath} {now : String}
    (hdc : dirChain fs path.parts) (hne : path.parts ≠ []) :
    dirChain (movedTree fs path now) path.parts := by
  intro q hq hne'
  have hlq : q.length < path.parts.length := by
    rcases Nat.lt_or_ge q.length path.parts.length with h | h
    · exact h
    · exfalso
      apply hne'
      have := List.IsPrefix.length_le hq
      have hql : q.length = path.parts.length := Nat.le_antisymm this h
      rw [prefix_eq_take hq, hql, List.take_length]
  rw [movedTree_lookup_frame q
    (fun hpq => by have := List.IsPrefix.length_le hpq; omega)
    (fun hpq => by
      have := List.IsPrefix.length_le hpq
      rw [bk_len hne now] at this
      omega)]
  exact hdc q hq hne'

theorem ensure_takeover_outcome {fs : FS} {now : String} {path dest : PPath} {n : Node}
    {b : Bool} {fs' : FS} {tr : List Ev}
    (hwf : wfFSb fs = true) (hnd : noDots path.parts = true) (hne : path.parts ≠ [])
    (hrt : parsePath (render dest) = dest) (hda : dest.abs = true)
    (hocc : fsLookup fs path.parts = some n) (hns : ∀ t, n ≠ Node.symlink t)
    (h : ensure_symlink_to fs now path dest = Except.ok (b, fs', tr)) :
    linksTo fs' path dest ∧
    b = true ∧
    fsLookup fs' (path.parts.dropLast ++ [path.name ++ "-" ++ now]) = some n ∧
    (∀ rel, rel ≠ [] →
      fsLookup fs' ((path.parts.dropLast ++ [path.name ++ "-" ++ now]) ++ rel)
        = fsLookup fs (path.parts ++ rel)) ∧
    fsLookup fs' path.parts = some (Node.symlink (render dest)) ∧
    (∀ q, ¬ (path.parts <+: q) →
      ¬ ((path.parts.dropLast ++ [path.name ++ "-" ++ now]) <+: q) →
      fsLookup fs' q = fsLookup fs q) := by
  have hdc : dirChain fs path.parts := fun q hq hne' => wfFSb_spec hwf hocc q hq hne'
  cases hbklk : fsLookup fs (path.parts.dropLast ++ [path.name ++ "-" ++ now]) with
  | some nb =>
    exfalso
    cases nb with
    | symlink tb =>
      cases hpe : pexists fs (path.withName (path.name ++ "-" ++ now)) with
      | true =>
        have heval := ensure_eval_backup_collision dest now hdc hnd hne hocc hns hpe
        rw [heval] at h
        exact Except.noConfusion h
      | false =>
        have heval := ensure_eval_backup_dangling dest now hwf hnd hne hocc hns hbklk hpe
        rw [heval] at h
        exact Except.noConfusion h
    | dir =>
      have hpe := pexists_bk_of_lookup_nonsym hdc hnd hne hbklk (fun t ht => by cases ht)
      have heval := ensure_eval_backup_collision dest now hdc hnd hne hocc hns hpe
      rw [heval] at h
      exact Except.noConfusion h
    | file s =>
      have hpe := pexists_bk_of_lookup_nonsym hdc hnd hne hbklk (fun t ht => by cases ht)
      have heval := ensure_eval_backup_collision dest now hdc hnd hne hocc hns hpe
      rw [heval] at h
      exact Except.noConfusion h
  | none =>
    have heval := ensure_eval_takeover dest now hwf hnd hne hocc hns hbklk
    rw [heval] at h
    injection h with h1
    injection h1 with hb h2
    injection h2 with hfs htr
    subst hb
    subst hfs
    have hbkne := bk_ne_parts hne now
    have hdc' : dirChain (fsInsert (movedTree fs path now) path.parts
        (Node.symlink (render dest))) path.parts := by
      intro q hq hne'
      rw [fsLookup_insert _ _ _ _ hne, if_neg hne']
      exact movedTree_dirChain hdc hne q hq hne'
    have hlkp : fsLookup (fsInsert (movedTree fs path now) path.parts
        (Node.symlink (render dest))) path.parts = some (Node.symlink (render dest)) := by
      rw [fsLookup_insert _ _ _ _ hne]
      simp
    refine ⟨?_, rfl, ?_, ?_, hlkp, ?_⟩
    · constructor
      · simp [isSymlink, lstatNode, physLstat_of_dirChain hdc' hnd, hlkp]
      · simp [readlink, lstatNode, physLstat_of_dirChain hdc' hnd, hlkp, hrt,
          PPath.join, hda]
    · rw [fsLookup_insert _ _ _ _ hne, if_neg hbkne]
      have := movedTree_lookup_moved hwf hne hbklk []
      simpa [hocc] using this
    · intro rel hrel
      have hlen : (path.parts.dropLast ++ [path.name ++ "-" ++ now] ++ rel).length
          ≠ path.parts.length := by
        rw [List.length_append, bk_len hne now]
        have : 0 < rel.length := List.length_pos.mpr hrel
        omega
      rw [fsLookup_insert _ _ _ _ hne,
        if_neg (fun he => hlen (by rw [he]))]
      exact movedTree_lookup_moved hwf hne hbklk rel
    · intro q hq1 hq2
      have hqne : q ≠ path.parts := fun he => hq1 (he ▸ List.prefix_rfl)
      rw [fsLookup_insert _ _ _ _ hne, if_neg hqne]
      exact movedTree_lookup_frame q hq1 hq2

/-- C2: for every initial occupant of the target path — nothing, a symlink
already pointing at the destination, a symlink pointing elsewhere, a regular
file, or a (possibly non-empty) directory — a successful
`ensure_symlink_to(path, dest)` call leaves `path` as a symlink to `dest`;
in the wrong-symlink case only the symlink itself is unlinked (every other
key is untouched, no backup is made), and in the file/directory case the
original occupant, with its entire subtree, is renamed to exactly one
backup path (`<name>-<timestamp>` beside it) and never deleted. -/
theorem ensure_symlink_spec (fs : FS) (now : String) (path dest : PPath)
    (b : Bool) (fs' : FS) (tr : List Ev)
    (hwf : wfFSb fs = true)
    (hcc : cleanChainB fs path.parts = true)
    (hnd : noDots path.parts = true)
    (hne : path.parts ≠ [])
    (hrt : parsePath (render dest) = dest)
    (hda : dest.abs = true)
    (h : ensure_symlink_to fs now path dest = Except.ok (b, fs', tr)) :
    linksTo fs' path dest ∧
    (∀ t, fsLookup fs path.parts = some (Node.symlink t) →
      (path.parent.join (parsePath t) = dest → b = false ∧ fs' = fs) ∧
      (path.parent.join (parsePath t) ≠ dest →
        b = true ∧
        fsLookup fs' path.parts = some (Node.symlink (render dest)) ∧
        ∀ q, q ≠ path.parts → fsLookup fs' q = fsLookup fs q)) ∧
    (∀ n, fsLookup fs path.parts = some n → (∀ t, n ≠ Node.symlink t) →
      b = true ∧
      fsLookup fs' (path.parts.dropLast ++ [path.name ++ "-" ++ now]) = some n ∧
      (∀ rel, rel ≠ [] →
        fsLookup fs' ((path.parts.dropLast ++ [path.name ++ "-" ++ now]) ++ rel)
          = fsLookup fs (path.parts ++ rel)) ∧
      fsLookup fs' path.parts = some (Node.symlink (render dest)) ∧
      (∀ q, ¬ (path.parts <+: q) →
        ¬ ((path.parts.dropLast ++ [path.name ++ "-" ++ now]) <+: q) →
        fsLookup fs' q = fsLookup fs q)) ∧
    (fsLookup fs path.parts = none →
      b = true ∧
      fsLookup fs' path.parts = some (Node.symlink (render dest)) ∧
      (∀ q, q ≠ path.parts → ¬ (q <+: path.parts) →
        fsLookup fs' q = fsLookup fs q)) := by
  cases hocc : fsLookup fs path.parts with
  | some n =>
    have hdc : dirChain fs path.parts := fun q hq hne' => wfFSb_spec hwf hocc q hq hne'
    cases n with
    | symlink t =>
      by_cases hjoin : path.parent.join (parsePath t) = dest
      · have heval := ensure_eval_correct_symlink now hdc hnd hne hocc hjoin
        rw [heval] at h
        injection h with h1
        injection h1 with hb h2
        injection h2 with hfs htr
        subst hb
        subst hfs
        refine ⟨?_, ?_, ?_, ?_⟩
        · constructor
          · simp [isSymlink, lstatNode, physLstat_of_dirChain hdc hnd, hocc]
          · simp [readlink, lstatNode, physLstat_of_dirChain hdc hnd, hocc, hjoin]
        · intro t' ht'
          injection ht' with ht''
          injection ht'' with ht3
          subst ht3
          exact ⟨fun _ => ⟨rfl, rfl⟩, fun hc => absurd hjoin hc⟩
        · intro n hn hns
          injection hn with hn'
          exact absurd hn'.symm (hns t)
        · intro h0
          cases h0
      · have heval := ensure_eval_wrong_symlink now hdc hnd hne hocc hjoin
        rw [heval] at h
        injection h with h1
        injection h1 with hb h2
        injection h2 with hfs htr
        subst hb
        subst hfs
        have hlkp : fsLookup (fsInsert (fsRemove fs path.parts) path.parts
            (Node.symlink (render dest))) path.parts
            = some (Node.symlink (render dest)) := by
          rw [fsLookup_insert _ _ _ _ hne]
          simp
        have hfr : ∀ q, q ≠ path.parts →
            fsLookup (fsInsert (fsRemove fs path.parts) path.parts
              (Node.symlink (render dest))) q = fsLookup fs q := by
          intro q hq
          rw [fsLookup_insert _ _ _ _ hne, if_neg hq,
            fsLookup_remove _ _ _ hne, if_neg hq]
        have hdc' : dirChain (fsInsert (fsRemove fs path.parts) path.parts
            (Node.symlink (render dest))) path.parts := by
          intro q hq hne'
          rw [hfr q hne']
          exact hdc q hq hne'
        refine ⟨?_, ?_, ?_, ?_⟩
        · constructor
          · simp [isSymlink, lstatNode, physLstat_of_dirChain hdc' hnd, hlkp]
          · simp [readlink, lstatNode, physLstat_of_dirChain hdc' hnd, hlkp, hrt,
              PPath.join, hda]
        · intro t' ht'
          injection ht' with ht''
          injection ht'' with ht3
          subst ht3
          exact ⟨fun hc => absurd hc hjoin, fun _ => ⟨rfl, hlkp, hfr⟩⟩
        · intro n hn hns
          injection hn with hn'
          exact absurd hn'.symm (hns t)
        · intro h0
          cases h0
    | file s =>
      have hout := ensure_takeover_outcome hwf hnd hne hrt hda hocc
        (fun t ht => by cases ht) h
      refine ⟨hout.1, ?_, ?_, ?_⟩
      · intro t' ht'
        cases ht'
      · intro n hn _
        injection hn with hn'
        subst hn'
        exact hout.2
      · intro h0
        cases h0
    | dir =>
      have hout := ensure_takeover_outcome hwf hnd hne hrt hda hocc
        (fun t ht => by cases ht) h
      refine ⟨hout.1, ?_, ?_, ?_⟩
      · intro t' ht'
        cases ht'
      · intro n hn _
        injection hn with hn'
        subst hn'
        exact hout.2
      · intro h0
        cases h0
  | none =>
    by_cases hdcp : dirChain fs path.parts
    · have heval := ensure_eval_absent_chain dest now hdcp hnd hne hocc
      rw [heval] at h
      injection h with h1
      injection h1 with hb h2
      injection h2 with hfs htr
      subst hb
      subst hfs
      have hlkp : fsLookup (fsInsert fs path.parts (Node.symlink (render dest)))
          path.parts = some (Node.symlink (render dest)) := by
        rw [fsLookup_insert _ _ _ _ hne]
        simp
      have hfr : ∀ q, q ≠ path.parts →
          fsLookup (fsInsert fs path.parts (Node.symlink (render dest))) q
            = fsLookup fs q := by
        intro q hq
        rw [fsLookup_insert _ _ _ _ hne, if_neg hq]
      have hdc' : dirChain (fsInsert fs path.parts (Node.symlink (render dest)))
          path.parts := by
        intro q hq hne'
        rw [hfr q hne']
        exact hdcp q hq hne'
      refine ⟨?_, ?_, ?_, ?_⟩
      · constructor
        · simp [isSymlink, lstatNode, physLstat_of_dirChain hdc' hnd, hlkp]
        · simp [readlink, lstatNode, physLstat_of_dirChain hdc' hnd, hlkp, hrt,
            PPath.join, hda]
      · intro t' ht'
        cases ht'
      · intro n hn _
        cases hn
      · intro _
        exact ⟨rfl, hlkp, fun q hq _ => hfr q hq⟩
    · have hclean := cleanChainB_spec hcc
      have hmiss : ∃ q, q <+: path.parts ∧ q ≠ path.parts ∧ q ≠ []
          ∧ fsLookup fs q = none := by
        by_contra hcon
        apply hdcp
        intro q hq hne'
        rcases hclean q hq hne' with hd | hn
        · exact hd
        · exfalso
          apply hcon
          refine ⟨q, hq, hne', ?_, hn⟩
          intro hq0
          subst hq0
          rw [fsLookup_nil] at hn
          cases hn
      cases hmk : mkdirp fs path.parts.dropLast with
      | error e =>
        have heval := ensure_eval_mkdir_error dest now hcc hnd hne hmiss hmk
        rw [heval] at h
        exact Except.noConfusion h
      | ok fs₁ =>
        have heval := ensure_eval_absent_mkdir dest now hcc hnd hne hocc hmiss hmk
        rw [heval] at h
        injection h with h1
        injection h1 with hb h2
        injection h2 with hfs htr
        subst hb
        subst hfs
        have hdc1 : dirChain fs₁ path.parts := mkdirp_dirChain hne hmk
        have hlkp : fsLookup (fsInsert fs₁ path.parts (Node.symlink (render dest)))
            path.parts = some (Node.symlink (render dest)) := by
          rw [fsLookup_insert _ _ _ _ hne]
          simp
        have hdc' : dirChain (fsInsert fs₁ path.parts (Node.symlink (render dest)))
            path.parts := by
          intro q hq hne'
          rw [fsLookup_insert _ _ _ _ hne, if_neg hne']
          exact hdc1 q hq hne'
        refine ⟨?_, ?_, ?_, ?_⟩
        · constructor
          · simp [isSymlink, lstatNode, physLstat_of_dirChain hdc' hnd, hlkp]
          · simp [readlink, lstatNode, physLstat_of_dirChain hdc' hnd, hlkp, hrt,
              PPath.join, hda]
        · intro t' ht'
          cases ht'
        · intro n hn _
          cases hn
        · intro _
          refine ⟨rfl, hlkp, ?_⟩
          intro q hq hqp
          rw [fsLookup_insert _ _ _ _ hne, if_neg hq]
          rw [mkdirp_frame hmk q (fun hc =>
            hqp (hc.trans (List.dropLast_prefix path.parts)))]

/-- Witness for C2: taking over a regular file at `/w` leaves `/w` a symlink
to the destination and the file's content at the single backup path. -/
theorem ensure_symlink_spec_witness :
    linksTo [(["w"], Node.symlink "/repo/2024-01-01"), (["w-T00"], Node.file "data")]
      ⟨true, ["w"]⟩ ⟨true, ["repo", "2024-01-01"]⟩ ∧
    fsLookup [(["w"], Node.symlink "/repo/2024-01-01"), (["w-T00"], Node.file "data")]
      (["w"].dropLast ++ [PPath.name ⟨true, ["w"]⟩ ++ "-" ++ "T00"])
      = some (Node.file "data") := by
  have h := ensure_symlink_spec w2Fs "T00" ⟨true, ["w"]⟩ ⟨true, ["repo", "2024-01-01"]⟩
    true [(["w"], Node.symlink "/repo/2024-01-01"), (["w-T00"], Node.file "data")]
    [Ev.ensureCall ⟨true, ["w"]⟩ ⟨true, ["repo", "2024-01-01"]⟩ true]
    (by decide) (by decide) (by decide) (by decide) (by decide) (by decide) (by decide)
  exact ⟨h.1, (h.2.2.1 (Node.file "data") (by decide) (fun t ht => by cases ht)).2.1⟩

/-- C8: when `ensure_symlink_to` must take over a path occupied by a real
(non-symlink) file or directory and the computed timestamp-suffixed backup
path already exists, the call fails with the `ValueError` raised by
`backup_path` — raised before any rename — and no successful outcome (hence
no mutated filesystem) is produced: the occupant is neither renamed,
removed, nor replaced by the call. -/
theorem backup_collision_fatal (fs : FS) (now : String) (path dest : PPath) (n : Node)
    (hwf : wfFSb fs = true) (hnd : noDots path.parts = true) (hne : path.parts ≠ [])
    (hocc : fsLookup fs path.parts = some n) (hns : ∀ t, n ≠ Node.symlink t)
    (hbk : pexists fs (path.withName (path.name ++ "-" ++ now)) = true) :
    ensure_symlink_to fs now path dest
      = Except.error (Err.backupExists (path.withName (path.name ++ "-" ++ now))) ∧
    ∀ r, ensure_symlink_to fs now path dest ≠ Except.ok r := by
  have h := ensure_eval_backup_collision dest now
    (fun q hq hne' => wfFSb_spec hwf hocc q hq hne') hnd hne hocc hns hbk
  refine ⟨h, fun r hr => ?_⟩
  rw [h] at hr
  exact Except.noConfusion hr

/-- Witness for C8: file at `/w`, file at the computed backup `/w-T8`. -/
theorem backup_collision_fatal_witness :
    ensure_symlink_to w8Fs "T8" ⟨true, ["w"]⟩ ⟨true, ["repo"]⟩
      = Except.error (Err.backupExists
          (PPath.withName ⟨true, ["w"]⟩ (PPath.name ⟨true, ["w"]⟩ ++ "-" ++ "T8"))) := by
  have h := backup_collision_fatal w8Fs "T8" ⟨true, ["w"]⟩ ⟨true, ["repo"]⟩
    (Node.file "x") (by decide) (by decide) (by decide) (by decide)
    (fun t ht => by cases ht) (by decide)
  exact h.1

/-- C9: for a path that is already a symlink, `ensure_symlink_to` judges it
by comparing `path.parent / os.readlink(path)` against `dest` as
unnormalised path values; a stored target that resolves to the same
physical destination but joins to a syntactically different path value is
treated as wrong: the symlink is unlinked, recreated pointing at `dest`,
and the call reports work done. -/
theorem symlink_comparison_syntactic (fs : FS) (now : String) (path dest : PPath)
    (t : String) (k : List String)
    (hwf : wfFSb fs = true) (hnd : noDots path.parts = true) (hne : path.parts ≠ [])
    (hocc : fsLookup fs path.parts = some (Node.symlink t))
    (hdiff : path.parent.join (parsePath t) ≠ dest)
    (hres1 : physStat fs (path.parent.join (parsePath t)) = some k)
    (hres2 : physStat fs dest = some k) :
    ensure_symlink_to fs now path dest
      = Except.ok (true,
          fsInsert (fsRemove fs path.parts) path.parts (Node.symlink (render dest)),
          [Ev.ensureCall path dest true]) :=
  ensure_eval_wrong_symlink now
    (fun q hq hne' => wfFSb_spec hwf hocc q hq hne') hnd hne hocc hdiff

/-- Witness for C9: `/home/link` stores `/x/../repo/d`, which resolves to
the same physical directory as the requested `/repo/d` but joins to a
different path value; the link is relinked and the call returns `True`. -/
theorem symlink_comparison_syntactic_witness :
    ensure_symlink_to w9Fs "T9" ⟨true, ["home", "link"]⟩ ⟨true, ["repo", "d"]⟩
      = Except.ok (true,
          fsInsert (fsRemove w9Fs (PPath.parts ⟨true, ["home", "link"]⟩))
            (PPath.parts ⟨true, ["home", "link"]⟩)
            (Node.symlink (render ⟨true, ["repo", "d"]⟩)),
          [Ev.ensureCall ⟨true, ["home", "link"]⟩ ⟨true, ["repo", "d"]⟩ true]) :=
  symlink_comparison_syntactic w9Fs "T9" ⟨true, ["home", "link"]⟩ ⟨true, ["repo", "d"]⟩
    "/x/../repo/d" ["repo", "d"] (by decide) (by decide) (by decide) (by decide)
    (by decide) (by decide) (by decide)

/-- C7 (failing input): `remove_empty_dirs` on a repository whose day
directory `2024-01-01` contains only a `prev` symlink filters `prev` out of
the emptiness check, decides the directory is removable, and then calls
`rmdir()` — which raises `OSError` (directory not empty) because the `prev`
entry is still inside; the directory is not removed.  The claim (and the
spec) say such a directory is treated as empty and removed. -/
theorem remove_empty_dirs_prev_only_error :
    ((iterdir c7Fs (repoP.child "2024-01-01")).toOption.getD []).filter
      (fun p => p.name ≠ PREV_LINK) = [] ∧
    remove_empty_dirs c7Fs repoP []
      = Except.error (Err.notEmpty ["repo", "2024-01-01"]) := by decide

/-- C5 (failing input): with the full flag unset, today's directory
existing, and the working-path symlink already correct (the
`ensure_symlink_to` call reports no work — the first trace event carries
`false`), the run nevertheless performs a VCS call (`Ev.gitStatus` in the
trace) and re-runs the prev-linking step: `main` treats the reconciler's
`True`-means-work-done result as `working_path_is_ok`, so the heavy path
runs exactly when no work was needed. -/
theorem fast_path_conditions_still_run_vcs :
    pexists c5Fs (repoP.child "2024-01-03") = true ∧
    c5Run = Except.ok (c5Fs, c5Git,
      [Ev.ensureCall workP (repoP.child "2024-01-03") false,
       Ev.gitStatus,
       Ev.ensureCall (workP.child PREV_LINK) (repoP.child "2024-01-03") false]) := by
  decide

/-- C3 (failing input): one reconciliation run from a converged same-day
state in which the populated prior day `2024-01-02` exists and today's
directory already exists: `latest_day_dir` picks today itself as the maximum
date, and the run relinks `2024-01-03/prev` to `/repo/2024-01-03` — today
becomes its own predecessor, contradicting the claim. -/
theorem prev_link_points_at_today_itself :
    pexists c3Fs (repoP.child "2024-01-02") = true ∧
    fsLookup ((c3Run.toOption.getD ([], ⟨none⟩, [])).1)
      ["repo", "2024-01-03", "prev"]
      = some (Node.symlink "/repo/2024-01-03") ∧
    c3Run.toOption ≠ none := by decide

/-- C1 (failing input): running `main` twice in succession with the same
inputs (full flag unset) and no external changes: the first run converges
the state, yet the second run is not a no-op — its trace contains an
`ensure_symlink_to` call on the prev link returning `True`, and the
filesystem after the second run differs from the filesystem after the
first (the prev link is re-pointed at today's own directory). -/
theorem main_second_run_not_noop :
    c1Run1.toOption ≠ none ∧
    c1Run2.toOption ≠ none ∧
    Ev.ensureCall (workP.child PREV_LINK) (repoP.child "2024-01-03") true ∈ c1St2.2.2 ∧
    c1St2.1 ≠ c1St1.1 :=
  ⟨by decide, by decide, by decide, by decide⟩

/-- `pexists` implies the path resolves to a physical key. -/
theorem physStat_isSome_of_pexists (fs : FS) (p : PPath) (hex : pexists fs p = true) :
    ∃ k, physStat fs p = some k := by
  unfold pexists statNode at hex
  cases h : physStat fs p with
  | none => rw [h] at hex; simp at hex
  | some k => exact ⟨k, rfl⟩

/-- `git_commit` on an existing repository with no post-filter changes is a
pure status query: state unchanged, no add, no commit. -/
theorem git_commit_no_changes (fs : FS) (git : GitSt) (date : String) (repo : PPath)
    (lines : List String)
    (hex : pexists fs repo = true)
    (hls : gitStatusLines git fs repo = Except.ok lines)
    (hch : hasChanges repo lines = false) :
    git_commit fs git date repo = Except.ok (fs, git, [Ev.gitStatus]) := by
  simp [git_commit, hex, hls, hch]

/-- C6: for a repository root whose only post-filter uncommitted changes (as
reported by VCS status) are `prev` entries, `git_commit` reports no local
changes — it creates no commit and runs no add, leaving both the filesystem
and the VCS state unchanged; and whenever at least one status entry's path
is not named `prev`, exactly one commit is made (one `gitAdd` followed by
one `gitCommitMsg`) whose summary is today's date and whose body also
encodes today's date. -/
theorem git_commit_prev_filter (fs : FS) (git : GitSt) (date : String) (repo : PPath)
    (lines : List String)
    (hex : pexists fs repo = true)
    (hls : gitStatusLines git fs repo = Except.ok lines) :
    ((∀ pr ∈ gitChangesOf repo lines, pr.2.name = PREV_LINK) →
      git_commit fs git date repo = Except.ok (fs, git, [Ev.gitStatus])) ∧
    ((∃ pr ∈ gitChangesOf repo lines, pr.2.name ≠ PREV_LINK) →
      ∃ rk, physStat fs repo = some rk ∧
        git_commit fs git date repo
          = Except.ok (fs, { snap := some (repoTree fs rk) },
              [Ev.gitStatus, Ev.gitAdd,
               Ev.gitCommitMsg date ("Temporary / scratch work until " ++ date)])) := by
  constructor
  · intro hall
    have hch : hasChanges repo lines = false := by
      unfold hasChanges
      rw [List.any_eq_false]
      intro pr hpr
      simp [hall pr hpr]
    exact git_commit_no_changes fs git date repo lines hex hls hch
  · intro h
    obtain ⟨pr, hpr, hne⟩ := h
    have hch : hasChanges repo lines = true := by
      unfold hasChanges
      rw [List.any_eq_true]
      exact ⟨pr, hpr, by simp [hne]⟩
    obtain ⟨rk, hrk⟩ := physStat_isSome_of_pexists fs repo hex
    refine ⟨rk, hrk, ?_⟩
    simp [git_commit, hex, hls, hch, hrk]

/-- Witness for C6: with only a pending `prev` symlink the run is a pure
status query — state unchanged, no add, no commit. -/
theorem git_commit_prev_filter_witness :
    git_commit w6Fs w6Git "2024-01-02" repoP
      = Except.ok (w6Fs, w6Git, [Ev.gitStatus]) :=
  (git_commit_prev_filter w6Fs w6Git "2024-01-02" repoP ["?? 2024-01-01/prev"]
    (by decide) (by decide)).1 (by decide)

/-- C10: `git_commit` change detection excludes a status entry exactly when
the final component of its reported path equals `prev` — the test looks
only at the path's last component, not its depth or the entry's type — so
the no-commit pure-status outcome occurs iff every reported entry's final
component is `prev`. -/
theorem git_changes_prev_exclusion (fs : FS) (git : GitSt) (date : String)
    (repo : PPath) (lines : List String)
    (hex : pexists fs repo = true)
    (hls : gitStatusLines git fs repo = Except.ok lines) :
    git_commit fs git date repo = Except.ok (fs, git, [Ev.gitStatus]) ↔
      ∀ pr ∈ gitChangesOf repo lines, pr.2.name = PREV_LINK := by
  constructor
  · intro hok
    by_contra hno
    push_neg at hno
    obtain ⟨pr, hpr, hne⟩ := hno
    have hch : hasChanges repo lines = true := by
      unfold hasChanges
      rw [List.any_eq_true]
      exact ⟨pr, hpr, by simp [hne]⟩
    obtain ⟨rk, hrk⟩ := physStat_isSome_of_pexists fs repo hex
    have hcm : git_commit fs git date repo
        = Except.ok (fs, { snap := some (repoTree fs rk) },
            [Ev.gitStatus, Ev.gitAdd,
             Ev.gitCommitMsg date ("Temporary / scratch work until " ++ date)]) := by
      simp [git_commit, hex, hls, hch, hrk]
    rw [hcm] at hok
    simp at hok
  · intro hall
    have hch : hasChanges repo lines = false := by
      unfold hasChanges
      rw [List.any_eq_false]
      intro pr hpr
      simp [hall pr hpr]
    exact git_commit_no_changes fs git date repo lines hex hls hch

/-- Witness for C10: an ordinary user file named `prev` nested inside a day
directory is the only pending change, and the run makes no commit. -/
theorem git_changes_prev_exclusion_witness :
    fsLookup w10Fs ["repo", "2024-01-01", "prev"] = some (Node.file "notes") ∧
    git_commit w10Fs w10Git "2024-01-02" repoP
      = Except.ok (w10Fs, w10Git, [Ev.gitStatus]) :=
  ⟨by decide,
   (git_changes_prev_exclusion w10Fs w10Git "2024-01-02" repoP
      ["?? 2024-01-01/prev"] (by decide) (by decide)).mpr (by decide)⟩

/-- The strict date order is irreflexive. -/
theorem date_lt_irrefl (a : Date) : Date.lt a a = false := by
  simp [Date.lt]

/-- Transitivity of the strict date order. -/
theorem date_lt_trans {a b c : Date}
    (h1 : Date.lt a b = true) (h2 : Date.lt b c = true) : Date.lt a c = true := by
  cases a; cases b; cases c
  simp [Date.lt] at *
  omega

/-- From `a ≤ r` and `d ≤ a` conclude `d ≤ r`, stated on the boolean strict
order. -/
theorem date_not_lt_trans {r a d : Date}
    (h1 : Date.lt r a = false) (h2 : Date.lt a d = false) : Date.lt r d = false := by
  cases r; cases a; cases d
  simp [Date.lt] at *
  omega

/-- From `d ≤ r` and `a < d` conclude that `r < a` is impossible. -/
theorem date_not_lt_of_lt {r a d : Date}
    (h1 : Date.lt r d = false) (h2 : Date.lt a d = true) : Date.lt r a = false := by
  cases r; cases a; cases d
  simp [Date.lt] at *
  omega

/-- Characterisation of the fold inside `latest_day_dir`: the result is
either the initial accumulator or one of the children paired with its parsed
date, that date being strictly greater than the initial one; and the
result's date dominates both every parsed child date and the initial date. -/
theorem latest_foldl_spec (children : List PPath) (acc : Date × PPath) :
    (children.foldl latestStep acc = acc ∨
      ∃ c ∈ children, ∃ dc, strptimeDate c.name = some dc ∧
        children.foldl latestStep acc = (dc, c) ∧ Date.lt acc.1 dc = true) ∧
    (∀ c ∈ children, ∀ dc, strptimeDate c.name = some dc →
      Date.lt (children.foldl latestStep acc).1 dc = false) ∧
    Date.lt (children.foldl latestStep acc).1 acc.1 = false := by
  induction children generalizing acc with
  | nil =>
    refine ⟨Or.inl rfl, ?_, date_lt_irrefl _⟩
    intro c hc
    cases hc
  | cons c rest ih =>
    have step : (c :: rest).foldl latestStep acc
        = rest.foldl latestStep (latestStep acc c) := rfl
    rcases hp : strptimeDate c.name with _ | d
    · have hstep : latestStep acc c = acc := by simp [latestStep, hp]
      rw [step, hstep]
      obtain ⟨h1, h2, h3⟩ := ih acc
      refine ⟨?_, ?_, h3⟩
      · rcases h1 with h | ⟨c', hc', dc', hdc', heq, hl⟩
        · exact Or.inl h
        · exact Or.inr ⟨c', List.mem_cons_of_mem _ hc', dc', hdc', heq, hl⟩
      · intro c' hc' dc' hdc'
        rcases List.mem_cons.mp hc' with rfl | hc'
        · rw [hp] at hdc'
          exact Option.noConfusion hdc'
        · exact h2 c' hc' dc' hdc'
    · by_cases hlt : Date.lt acc.1 d = true
      · have hstep : latestStep acc c = (d, c) := by simp [latestStep, hp, hlt]
        rw [step, hstep]
        obtain ⟨h1, h2, h3⟩ := ih (d, c)
        refine ⟨?_, ?_, ?_⟩
        · rcases h1 with h | ⟨c', hc', dc', hdc', heq, hl⟩
          · exact Or.inr ⟨c, List.mem_cons_self c rest, d, hp, h, hlt⟩
          · exact Or.inr ⟨c', List.mem_cons_of_mem _ hc', dc', hdc', heq,
              date_lt_trans hlt hl⟩
        · intro c' hc' dc' hdc'
          rcases List.mem_cons.mp hc' with rfl | hc'
          · rw [hp] at hdc'
            injection hdc' with hdd
            rw [← hdd]
            exact h3
          · exact h2 c' hc' dc' hdc'
        · exact date_not_lt_of_lt h3 hlt
      · have hlf : Date.lt acc.1 d = false := by
          cases h : Date.lt acc.1 d
          · rfl
          · exact absurd h hlt
        have hstep : latestStep acc c = acc := by simp [latestStep, hp, hlf]
        rw [step, hstep]
        obtain ⟨h1, h2, h3⟩ := ih acc
        refine ⟨?_, ?_, h3⟩
        · rcases h1 with h | ⟨c', hc', dc', hdc', heq, hl⟩
          · exact Or.inl h
          · exact Or.inr ⟨c', List.mem_cons_of_mem _ hc', dc', hdc', heq, hl⟩
        · intro c' hc' dc' hdc'
          rcases List.mem_cons.mp hc' with rfl | hc'
          · rw [hp] at hdc'
            injection hdc' with hdd
            rw [← hdd]
            exact date_not_lt_trans h3 hlf
          · exact h2 c' hc' dc' hdc'

/-- C4 (counterexample): a repository whose only child is named
`1900-01-01` — a name that does parse as a valid date — yields no latest
day directory: the loop's 1900-01-01 sentinel together with the strict `>`
comparison drops this child, so `latest_day_dir` does NOT return the child
with the maximum parsed date as the claim states. -/
theorem latest_day_dir_claim_false :
    strptimeDate (PPath.name (repoP.child "1900-01-01")) = some ⟨1900, 1, 1⟩ ∧
    iterdir c4Fs repoP = Except.ok [repoP.child "1900-01-01"] ∧
    latest_day_dir c4Fs repoP = Except.ok none := by decide

/-- C4 (amended): on any resolvable root, `latest_day_dir` scans exactly the
immediate children, ignores (without failing) every child whose name does
not parse as a date, and returns the child with the maximum parsed date
AMONG CHILDREN WHOSE PARSED DATE IS STRICTLY AFTER THE 1900-01-01 SENTINEL;
it returns nothing iff no child's parsed date is strictly after the
sentinel (so a child dated on or before 1900-01-01 is dropped even though
its name parses). -/
theorem latest_day_dir_spec (fs : FS) (path : PPath) (children : List PPath)
    (hch : iterdir fs path = Except.ok children) :
    ∃ r, latest_day_dir fs path = Except.ok r ∧
      (r = none ↔ ∀ c ∈ children, ∀ dc, strptimeDate c.name = some dc →
        Date.lt sentinelDate dc = false) ∧
      ∀ p, r = some p → p ∈ children ∧
        ∃ dp, strptimeDate p.name = some dp ∧ Date.lt sentinelDate dp = true ∧
          ∀ c ∈ children, ∀ dc, strptimeDate c.name = some dc →
            Date.lt dp dc = false := by
  obtain ⟨h1, h2, h3⟩ := latest_foldl_spec children (sentinelDate, path)
  by_cases hs : (children.foldl latestStep (sentinelDate, path)).1 = sentinelDate
  · refine ⟨none, ?_, ?_, ?_⟩
    · simp [latest_day_dir, hch, hs]
    · constructor
      · intro _ c hc dc hdc
        rw [← hs]
        exact h2 c hc dc hdc
      · intro _
        rfl
    · intro p hp
      exact absurd hp (by simp)
  · refine ⟨some (children.foldl latestStep (sentinelDate, path)).2, ?_, ?_, ?_⟩
    · simp [latest_day_dir, hch, hs]
    · constructor
      · intro h
        exact absurd h (by simp)
      · intro hall
        exfalso
        rcases h1 with heq | ⟨c, hc, dc, hdc, heq, hl⟩
        · exact hs (by rw [heq])
        · exact absurd (show Date.lt sentinelDate dc = true from hl)
            (by simp [hall c hc dc hdc])
    · intro p hp
      injection hp with hp2
      rcases h1 with heq | ⟨c, hc, dc, hdc, heq, hl⟩
      · exact absurd (by rw [heq]) hs
      · have hc2 : (children.foldl latestStep (sentinelDate, path)).2 = c := by
          rw [heq]
        have hd2 : (children.foldl latestStep (sentinelDate, path)).1 = dc := by
          rw [heq]
        rw [← hp2, hc2]
        refine ⟨hc, dc, hdc, show Date.lt sentinelDate dc = true from hl, ?_⟩
        intro c' hc' dc' hdc'
        have hm := h2 c' hc' dc' hdc'
        rw [hd2] at hm
        exact hm

/-- Witness for C4: a root holding `notes.txt`, the invalid date
`2024-13-40`, and the valid days `2024-01-01` and `2024-01-02` yields
`2024-01-02`, and the amended characterisation holds on it. -/
theorem latest_day_dir_spec_witness :
    latest_day_dir w4Fs repoP = Except.ok (some (repoP.child "2024-01-02")) ∧
    (∃ r, latest_day_dir w4Fs repoP = Except.ok r ∧
      (r = none ↔ ∀ c ∈ [repoP.child "notes.txt", repoP.child "2024-13-40",
          repoP.child "2024-01-01", repoP.child "2024-01-02"],
        ∀ dc, strptimeDate c.name = some dc →
          Date.lt sentinelDate dc = false) ∧
      ∀ p, r = some p → p ∈ [repoP.child "notes.txt", repoP.child "2024-13-40",
          repoP.child "2024-01-01", repoP.child "2024-01-02"] ∧
        ∃ dp, strptimeDate p.name = some dp ∧ Date.lt sentinelDate dp = true ∧
          ∀ c ∈ [repoP.child "notes.txt", repoP.child "2024-13-40",
              repoP.child "2024-01-01", repoP.child "2024-01-02"],
            ∀ dc, strptimeDate c.name = some dc →
              Date.lt dp dc = false) :=
  ⟨by decide,
   latest_day_dir_spec w4Fs repoP
     [repoP.child "notes.txt", repoP.child "2024-13-40",
      repoP.child "2024-01-01", repoP.child "2024-01-02"] (by decide)⟩

end TodayTmp
